import Mathlib

/-!
# `math.c`: the process-per-operator expression evaluator

A shallow embedding of `src/math.c`; the embeddings of `trig.c`, `inventory.c` and
`readAndPrint.c` follow it, each in its own namespace, and the theorems come after all
the definitions.

* A C string is the list of its characters before the terminating NUL (`cstr`).
* An `int` is a Lean `Int`; an arithmetic result that does not fit in 32 bits is
  undefined behaviour in C and is a separate outcome here (`Calc.undefined`).
* Locals that the source leaves uninitialised (`num1`, `num2`, `operator`, `result`)
  start from the arbitrary contents recorded in `Env`.
* `fork` is an oracle: the `i`-th call either creates a child with some process id
  or fails.  The child is run to completion inside the parent's step, which is what
  the blocking `waitpid` observes.
* Everything written to the terminal and every process event is recorded as an
  `Event`, in order.
-/

namespace MathC

/-! ## Machine integers and libc constants -/

/-- Largest value of a 32-bit `int`. -/
def INT_MAX : Int := 2147483647

/-- Smallest value of a 32-bit `int`. -/
def INT_MIN : Int := -2147483648

/-- The value is representable in a 32-bit `int`. -/
def inIntRange (x : Int) : Prop := INT_MIN ≤ x ∧ x ≤ INT_MAX

instance (x : Int) : Decidable (inIntRange x) := by
  unfold inIntRange; exact inferInstance

/-- Value of `EXIT_FAILURE` from `<stdlib.h>` (glibc). -/
def EXIT_FAILURE : Int := 1

/-- The status `waitpid` stores for a child that called `exit(code)`:
only the low 8 bits of `code` are kept, in bits 8..15 of the status. -/
def W_EXITCODE (code : Int) : Int := (code % 256) * 256

/-- The macro `WEXITSTATUS` from `<sys/wait.h>`: bits 8..15 of the status. -/
def WEXITSTATUS (status : Int) : Int := (status / 256) % 256

/-! ## Strings and `sscanf` -/

/-- The characters of a C string: everything before the first NUL. -/
def cstr (s : List Char) : List Char := s.takeWhile (fun c => c != '\x00')

/-- The function `isspace` of the C locale. -/
def isspace (c : Char) : Bool :=
  c == ' ' || c == '\t' || c == '\n' || c == '\x0b' || c == '\x0c' || c == '\r'

/-- The function `isdigit`. -/
def isdigit (c : Char) : Bool := '0' ≤ c && c ≤ '9'

/-- A white-space directive of a `scanf` format (also the implicit skip of `%d`):
consumes any amount of white space, possibly none. -/
def skipSpace : List Char → List Char
  | [] => []
  | c :: cs => if isspace c then skipSpace cs else c :: cs

/-- Value of a run of decimal digits, most significant first. -/
def digitsValue (ds : List Char) : Nat :=
  ds.foldl (fun acc c => acc * 10 + (c.toNat - '0'.toNat)) 0

/-- What one `%d` conversion does to its target variable. -/
inductive Conv where
  /-- The conversion succeeded and stored `v`. -/
  | assigned (v : Int)
  /-- Matching or input failure: the variable keeps its old contents. -/
  | unassigned
  /-- The digits denote a value that is not representable: undefined behaviour. -/
  | overflow
  deriving DecidableEq, Repr

/-- The variable after the conversion, given its contents before. -/
def Conv.store (old : Int) : Conv → Int
  | .assigned v => v
  | .unassigned => old
  | .overflow => old

/-- The conversion `%d`: skip white space, an optional sign, then at least one digit. -/
def scanInt (s : List Char) : Conv :=
  match skipSpace s with
  | [] => .unassigned
  | c :: cs =>
    let neg := c == '-'
    let body := if c == '-' || c == '+' then cs else c :: cs
    let ds := body.takeWhile isdigit
    if ds.isEmpty then .unassigned
    else
      let v : Int := if neg then -(digitsValue ds : Int) else (digitsValue ds : Int)
      if inIntRange v then .assigned v else .overflow

/-- The call `sscanf(s, "%d", &num1)`. -/
def sscanf_d (s : List Char) : Conv := scanInt s

/-- The call `sscanf(s, " %c %d", &operator, &num2)`: what is stored in `operator`
(`none`: end of input before any character, nothing stored) and in `num2`. -/
def sscanf_c_d (s : List Char) : Option Char × Conv :=
  match skipSpace s with
  | [] => (none, .unassigned)
  | c :: cs => (some c, scanInt (skipSpace cs))

/-! ## `numDigs` -/

/-- The loop of `numDigs`: `while (n != 0) { n = n / 10; c++; }`.  The fuel bounds the
number of iterations; `numDigs` passes `|num|`, which the loop never exhausts. -/
def numDigsLoop : Nat → Int → Nat → Nat
  | 0, _, c => c
  | fuel + 1, n, c => if n != 0 then numDigsLoop fuel (n.tdiv 10) (c + 1) else c

/-- The function `numDigs`. -/
def numDigs (num : Int) : Nat := numDigsLoop num.natAbs num 0

/-! ## `performCalculation` -/

/-- The two diagnostics `performCalculation` writes to `stderr` before `exit(EXIT_FAILURE)`. -/
inductive CalcError where
  /-- The message "Error: Division by zero". -/
  | divisionByZero
  /-- The message "Error: Invalid operator %c". -/
  | invalidOperator (c : Char)
  deriving DecidableEq, Repr

/-- How a call of `performCalculation` ends. -/
inductive Calc where
  /-- The function reaches `return result;`. -/
  | ret (result : Int)
  /-- A diagnostic on `stderr`, then `exit(EXIT_FAILURE)`. -/
  | exitFailure (e : CalcError)
  /-- Signed overflow of the arithmetic: undefined behaviour. -/
  | undefined
  deriving DecidableEq, Repr

/-- An exact arithmetic result as an `int`. -/
def checked (x : Int) : Calc := if inIntRange x then .ret x else .undefined

/-- The function `performCalculation`. -/
def performCalculation (operator : Char) (num1 num2 : Int) : Calc :=
  if operator = '+' then checked (num1 + num2)
  else if operator = '-' then checked (num1 - num2)
  else if operator = '*' then checked (num1 * num2)
  else if operator = '/' then
    if num2 ≠ 0 then checked (num1.tdiv num2)
    else .exitFailure .divisionByZero
  else .exitFailure (.invalidOperator operator)

/-! ## The driver `evaluateExpression` -/

/-- Observable events of a run, in program order. -/
inductive Event where
  /-- The call `fork()` created a child with this process id, which starts with these locals. -/
  | forked (pid : Nat) (operator : Char) (num1 num2 : Int)
  /-- The call `fork()` returned `-1`. -/
  | forkFailed
  /-- Child, stdout: "PID %d calculated %d%c%d as %d". -/
  | workerLine (pid : Nat) (num1 : Int) (operator : Char) (num2 result : Int)
  /-- Child, stderr: the diagnostic of `performCalculation`. -/
  | workerError (pid : Nat) (e : CalcError)
  /-- The call `waitpid` returned for this child with this status. -/
  | reaped (pid : Nat) (status : Int)
  /-- Parent, stdout: "Enter problem: ". -/
  | prompt
  /-- Parent, stdout: "Final result: %d". -/
  | finalResult (value : Int)
  deriving DecidableEq, Repr

/-- Undefined behaviour a run can reach. -/
inductive Undefined where
  /-- The pointer `expression + offset` is past the terminating NUL. -/
  | readPastEnd
  /-- The conversion `%d` met digits whose value is not an `int`. -/
  | scanOverflow
  /-- Signed overflow in `performCalculation`. -/
  | arithmeticOverflow
  /-- The call `fgets` read nothing, the buffer is uninitialised. -/
  | noInput
  deriving DecidableEq, Repr

/-- What the program does not control: the outcome of each `fork` (indexed by the
loop counter; `none` is failure, `some pid` the new child's id) and the contents of
the locals that are declared without initialiser. -/
structure Env where
  fork : Nat → Option Nat
  num1 : Int
  num2 : Int
  operator : Char
  result : Int

/-- The locals of `evaluateExpression` in the parent, and the events so far. -/
structure State where
  num1 : Int
  num2 : Int
  operator : Char
  result : Int
  offset : Nat
  trace : List Event
  deriving DecidableEq, Repr

/-- The scan of the whole string that computes `numOperators`. -/
def countOperators (s : List Char) : Nat :=
  s.foldl (fun numOperators c =>
    if c = '+' ∨ c = '-' ∨ c = '*' ∨ c = '/' then numOperators + 1 else numOperators) 0

/-- The child branch (`pid == 0`): `performCalculation`, the diagnostic line, `exit(result)`.
Returns the argument of `exit` and what the child wrote. -/
def worker (pid : Nat) (operator : Char) (num1 num2 : Int) :
    Except Undefined (Int × List Event) :=
  match performCalculation operator num1 num2 with
  | .ret result => .ok (result, [.workerLine pid num1 operator num2 result])
  | .exitFailure e => .ok (EXIT_FAILURE, [.workerError pid e])
  | .undefined => .error .arithmeticOverflow

/-- The body of the loop after the `sscanf`: `fork`, the child's run, `waitpid`, and the
parent's two assignments.  `operator` and `num2` are the locals as the `sscanf` left them. -/
def spawnAndWait (fork : Nat → Option Nat) (i : Nat) (operator : Char) (num2 : Int)
    (st : State) : Except Undefined State :=
  match fork i with
  | some pid =>
    match worker pid operator st.num1 num2 with
    | .error u => .error u
    | .ok (code, out) =>
      let result := W_EXITCODE code
      .ok { num1 := WEXITSTATUS result, num2 := num2, operator := operator,
            result := result, offset := st.offset + (3 + numDigs num2),
            trace := st.trace ++ (.forked pid operator st.num1 num2 :: out)
              ++ [.reaped pid result] }
  | none =>
    -- `waitpid(-1, &result, 0)` finds no child and leaves `result` alone
    .ok { num1 := WEXITSTATUS st.result, num2 := num2, operator := operator,
          result := st.result, offset := st.offset + (3 + numDigs num2),
          trace := st.trace ++ [.forkFailed] }

/-- One iteration of the `for` loop, seen from the parent. -/
def iteration (fork : Nat → Option Nat) (s : List Char) (i : Nat) (st : State) :
    Except Undefined State :=
  if s.length < st.offset then .error .readPastEnd
  else
    match sscanf_c_d (s.drop st.offset) with
    | (_, .overflow) => .error .scanOverflow
    | (oc, cv) => spawnAndWait fork i (oc.getD st.operator) (cv.store st.num2) st

/-- The loop `for (int i = 0; i < numOperators; i++)`: `remaining` iterations from `i`. -/
def loop (fork : Nat → Option Nat) (s : List Char) : Nat → Nat → State → Except Undefined State
  | 0, _, st => .ok st
  | remaining + 1, i, st =>
    match iteration fork s i st with
    | .error u => .error u
    | .ok st' => loop fork s remaining (i + 1) st'

/-- The state of the parent just before the loop of `evaluateExpression`. -/
def start (env : Env) (s : List Char) : Except Undefined State :=
  match sscanf_d s with
  | .overflow => .error .scanOverflow
  | cv =>
    let num1 := cv.store env.num1
    .ok { num1 := num1, num2 := env.num2, operator := env.operator, result := env.result,
          offset := numDigs num1, trace := [] }

/-- The function `evaluateExpression`; its return value is `num1` of the final state. -/
def evaluateExpression (env : Env) (expression : List Char) : Except Undefined State :=
  let s := cstr expression
  match start env s with
  | .error u => .error u
  | .ok st => loop env.fork s (countOperators s) 0 st

/-- The call `fgets(expression, size, stdin)`: at most `size - 1` characters, stopping
after the first newline; `none` at end of file. -/
def fgets (size : Nat) (stdin : List Char) : Option (List Char) :=
  if stdin.isEmpty then none
  else
    let line := stdin.takeWhile (fun c => c != '\n')
    let line := if line.length < stdin.length then line ++ ['\n'] else line
    some (line.take (size - 1))

/-- The function `main` on the bytes waiting on standard input: the events of the run and
the exit status of the process. -/
def main (env : Env) (stdin : List Char) : Except Undefined (List Event × Int) :=
  match fgets 100 stdin with
  | none => .error .noInput
  | some expression =>
    match evaluateExpression env expression with
    | .error u => .error u
    | .ok st => .ok (.prompt :: st.trace ++ [.finalResult st.num1], 0)

/-! ## Reference definitions for the statements -/

/-- The decimal numeral of a natural number, as printed by `Nat.repr`. -/
def decimal (n : Nat) : List Char := Nat.toDigits 10 n

/-- The text ` op1 n1 op2 n2 ...`: every token preceded by one space. -/
def renderTail : List (Char × Nat) → List Char
  | [] => []
  | (o, n) :: r => ' ' :: o :: ' ' :: (decimal n ++ renderTail r)

/-- The text `n0 op1 n1 ... opk nk`, tokens separated by single spaces. -/
def render (n0 : Nat) (rest : List (Char × Nat)) : List Char :=
  decimal n0 ++ renderTail rest

/-- The four operators of the expression language. -/
def isOperator (c : Char) : Prop := c = '+' ∨ c = '-' ∨ c = '*' ∨ c = '/'

instance (c : Char) : Decidable (isOperator c) := by
  unfold isOperator; exact inferInstance

/-- A positive integer that fits in an `int`. -/
def isPositiveInt (n : Nat) : Prop := 0 < n ∧ (n : Int) ≤ INT_MAX

instance (n : Nat) : Decidable (isPositiveInt n) := by
  unfold isPositiveInt; exact inferInstance

/-- The left fold `(((n0 op1 n1) op2 n2) ... opk nk)` of `performCalculation`. -/
def leftFold (acc : Int) : List (Char × Nat) → Calc
  | [] => .ret acc
  | (o, n) :: r =>
    match performCalculation o acc n with
    | .ret v => leftFold v r
    | other => other

/-- Every result of the left fold, the final one included, is returned and lies in
`0..255`: each of them passes through the exit status of a worker. -/
def resultsInByte (acc : Int) : List (Char × Nat) → Prop
  | [] => True
  | (o, n) :: r =>
    ∃ v, performCalculation o acc n = .ret v ∧ 0 ≤ v ∧ v ≤ 255 ∧ resultsInByte v r

/-- Every intermediate result of the left fold, that is the result of every operation but
the last, is returned and lies in `0..255`; nothing is asked of the final result. -/
def intermediateInByte (acc : Int) : List (Char × Nat) → Prop
  | [] => True
  | [_] => True
  | (o, n) :: r =>
    ∃ v, performCalculation o acc n = .ret v ∧ 0 ≤ v ∧ v ≤ 255 ∧ intermediateInByte v r

/-- What the parent adopts as accumulator from a child that ran `performCalculation`:
`none` when the child's arithmetic is undefined. -/
def adopted : Calc → Option Int
  | .ret result => some (WEXITSTATUS (W_EXITCODE result))
  | .exitFailure _ => some (WEXITSTATUS (W_EXITCODE EXIT_FAILURE))
  | .undefined => none

/-- No worker of the left-to-right run overflows: each operation, applied to the
accumulator adopted from the previous worker, has a defined result. -/
def noOverflow (acc : Int) : List (Char × Nat) → Prop
  | [] => True
  | (o, n) :: r =>
    ∃ v, adopted (performCalculation o acc n) = some v ∧ noOverflow v r

/-- The loop of the driver run on the token list instead of the text. -/
def tokenLoop (fork : Nat → Option Nat) : List (Char × Nat) → Nat → State → Except Undefined State
  | [], _, st => .ok st
  | (o, n) :: r, i, st =>
    match spawnAndWait fork i o n st with
    | .error u => .error u
    | .ok st' => tokenLoop fork r (i + 1) st'

/-- The operator and right operand a worker is created with, for a `forked` event. -/
def Event.spawn : Event → Option (Char × Int)
  | .forked _ operator _ num2 => some (operator, num2)
  | _ => none

/-- The workers of a trace, in the order of their creation. -/
def spawned (trace : List Event) : List (Char × Int) := trace.filterMap Event.spawn

/-- The event is the collection of a child's status. -/
def Event.isReap : Event → Bool
  | .reaped _ _ => true
  | _ => false

/-- The number of results the parent has observed. -/
def reaps (trace : List Event) : Nat := trace.countP Event.isReap

/-- An environment in which every `fork` succeeds, for the concrete runs below. -/
def sampleEnv : Env :=
  { fork := fun i => some (1000 + i), num1 := 11, num2 := 22, operator := 'x', result := 33 }

/-- The quotient of `a` by `b` truncated toward zero: the quotient of the magnitudes,
with the sign of the operands. -/
def truncatedQuotient (a b : Int) : Int :=
  a.sign * b.sign * ((a.natAbs / b.natAbs : Nat) : Int)

/-- The exact value the four operators denote. -/
def exactResult (op : Char) (a b : Int) : Int :=
  if op = '+' then a + b
  else if op = '-' then a - b
  else if op = '*' then a * b
  else truncatedQuotient a b

/-- The expression `n0 op1 n1 ... opk nk` is made of positive `int`s and of the four operators. -/
def wellFormed (n0 : Nat) (rest : List (Char × Nat)) : Prop :=
  isPositiveInt n0 ∧ ∀ p ∈ rest, isOperator p.1 ∧ isPositiveInt p.2

instance (n0 : Nat) (rest : List (Char × Nat)) : Decidable (wellFormed n0 rest) := by
  unfold wellFormed; exact inferInstance

/-- The state in which the loop starts on `n0 ...`: the leading number in `num1`, the
cursor right behind it, the other locals uninitialised. -/
def startState (env : Env) (n0 : Nat) : State :=
  { num1 := n0, num2 := env.num2, operator := env.operator, result := env.result,
    offset := (decimal n0).length, trace := [] }

/-- The text does not continue a numeral: it is empty or starts with a non-digit. -/
def stops (rest : List Char) : Prop := ∀ c, rest.head? = some c → isdigit c = false

/-- The check that a trace is strictly sequential, read from left to right with the worker
that is alive at this point (`none`: no worker is alive).  A `fork` happens only while no
worker is alive; what a worker writes and the collection of its status come from the one
worker that is alive, and the collection ends it; the parent writes only while no worker
is alive; at the end no worker is left. -/
def sequentialFrom : Option Nat → List Event → Bool
  | alive, [] => alive.isNone
  | none, .forked pid _ _ _ :: t => sequentialFrom (some pid) t
  | some _, .forked _ _ _ _ :: _ => false
  | some p, .workerLine pid _ _ _ _ :: t => p == pid && sequentialFrom (some p) t
  | none, .workerLine _ _ _ _ _ :: _ => false
  | some p, .workerError pid _ :: t => p == pid && sequentialFrom (some p) t
  | none, .workerError _ _ :: _ => false
  | some p, .reaped pid _ :: t => p == pid && sequentialFrom none t
  | none, .reaped _ _ :: _ => false
  | alive, .forkFailed :: t => alive.isNone && sequentialFrom alive t
  | alive, .prompt :: t => alive.isNone && sequentialFrom alive t
  | alive, .finalResult _ :: t => alive.isNone && sequentialFrom alive t

/-- The trace of a whole run is strictly sequential. -/
def sequential (trace : List Event) : Bool := sequentialFrom none trace

/-- The event is the creation of a worker. -/
def Event.isFork : Event → Bool
  | .forked _ _ _ _ => true
  | _ => false

/-- The number of workers created in a trace. -/
def forks (trace : List Event) : Nat := trace.countP Event.isFork

/-- The accumulator after the left-to-right run of the workers on the tokens, each
result passing through the exit status; `none` when a worker overflows. -/
def accumulate (acc : Int) : List (Char × Nat) → Option Int
  | [] => some acc
  | (o, n) :: r =>
    match adopted (performCalculation o acc n) with
    | some v => accumulate v r
    | none => none

/-- The event is a failed `fork`. -/
def Event.isForkFailure : Event → Bool
  | .forkFailed => true
  | _ => false

/-- The number of failed `fork` calls in a trace. -/
def forkFailures (trace : List Event) : Nat := trace.countP Event.isForkFailure

/-- An environment in which the second `fork` fails and every other one succeeds. -/
def flakyEnv : Env :=
  { fork := fun i => if i = 1 then none else some (1000 + i),
    num1 := 11, num2 := 22, operator := 'x', result := 33 }

end MathC

/-! # `trig.c`: the Taylor-series table, in exact arithmetic

A `double` is modelled by an exact rational, as the claims about this program ask for. -/

namespace TrigC

/-- The macro `PI`. -/
def PI : ℚ := 314159265358979323846 / 100000000000000000000

/-- The value of `threshold` in `main`. -/
def threshold : ℚ := 1 / 1000000

/-- The function `difference`. -/
def difference (prev curr : ℚ) : ℚ :=
  let d := prev - curr
  if d < 0 then d * -1 else d

/-- The loop of `myPow`, `for (i = 1; i <= p; i++) power *= n`, with the number of
iterations that are left. -/
def myPowLoop (n : ℚ) : Nat → ℚ → ℚ
  | 0, power => power
  | k + 1, power => myPowLoop n k (power * n)

/-- The function `myPow`. -/
def myPow (n : ℚ) (p : Int) : ℚ := myPowLoop n p.toNat 1

/-- The loop of `myFact`, `for (i = n; i >= 1; i--) fact *= i`, on the loop variable `i`. -/
def myFactLoop : Nat → ℚ → ℚ
  | 0, fact => fact
  | i + 1, fact => myFactLoop i (fact * ((i + 1 : Nat) : ℚ))

/-- The function `myFact`. -/
def myFact (n : Int) : ℚ := myFactLoop n.toNat 1

/-- The loop of `sinTaylor` from the test `i < fin` on, with the locals `i`, `fin`, `c`,
`sTayl`.  The distance `fin - i` shrinks in every iteration, also in the one that
resets `i` and `fin`. -/
def sinTaylorLoop (a : ℚ) (i fin c : Int) (sTayl : ℚ) : ℚ :=
  if i < fin then
    if i = 0 then sinTaylorLoop a (i + 1) fin (c + 1) sTayl
    else if i = 1 then sinTaylorLoop a (i + 1) fin (c + 1) (sTayl + myPow a c / myFact c)
    else if i = 2 then sinTaylorLoop a (i + 1) fin (c + 1) sTayl
    else if i = 3 then
      sinTaylorLoop a (i - 4 + 1) (fin - 4) (c + 1) (sTayl - myPow a c / myFact c)
    else sinTaylorLoop a (i + 1) fin c sTayl
  else sTayl
termination_by (fin - i).toNat
decreasing_by all_goals (simp_wf; omega)

/-- The function `sinTaylor`. -/
def sinTaylor (t : Int) (a : ℚ) : ℚ := sinTaylorLoop a 0 t 0 0

/-- The loop of `cosTaylor` from the test `i < fin` on, with the locals `i`, `fin`, `c`,
`cTayl`. -/
def cosTaylorLoop (a : ℚ) (i fin c : Int) (cTayl : ℚ) : ℚ :=
  if i < fin then
    if i = 0 then cosTaylorLoop a (i + 1) fin (c + 1) (cTayl + myPow a c / myFact c)
    else if i = 1 then cosTaylorLoop a (i + 1) fin (c + 1) cTayl
    else if i = 2 then cosTaylorLoop a (i + 1) fin (c + 1) (cTayl - myPow a c / myFact c)
    else if i = 3 then cosTaylorLoop a (i - 4 + 1) (fin - 4) (c + 1) cTayl
    else cosTaylorLoop a (i + 1) fin c cTayl
  else cTayl
termination_by (fin - i).toNat
decreasing_by all_goals (simp_wf; omega)

/-- The function `cosTaylor`. -/
def cosTaylor (t : Int) (a : ℚ) : ℚ := cosTaylorLoop a 0 t 0 0

/-- One line of the table, as passed to `tableRow`; the tangent is `none` when the
cosine estimate is zero and the quotient is not defined. -/
structure Row where
  terms : Int
  s : ℚ
  c : ℚ
  t : Option ℚ
  deriving DecidableEq

/-- The `while` loop of `main` from its test on, with the locals `term`, `sPrev`, `cPrev`,
`sDiff`, `cDiff` and the rows printed so far.  The fuel bounds the number of tests;
`none` means that it ran out. -/
def tableLoop (ang : ℚ) : Nat → Int → ℚ → ℚ → ℚ → ℚ → List Row → Option (List Row)
  | 0, _, _, _, _, _, _ => none
  | fuel + 1, term, sPrev, cPrev, sDiff, cDiff, rows =>
    if sDiff > threshold ∨ cDiff > threshold then
      let sCurr := sinTaylor term ang
      let cCurr := cosTaylor term ang
      let tVal := if cCurr = 0 then none else some (sCurr / cCurr)
      let rows := rows ++ [{ terms := term, s := sCurr, c := cCurr, t := tVal }]
      if term = 1 then tableLoop ang fuel (term + 1) sCurr cCurr sDiff cDiff rows
      else
        tableLoop ang fuel (term + 1) sCurr cCurr (difference sPrev sCurr)
          (difference cPrev cCurr) rows
    else some rows

/-- The function `main` after `getAngle` has returned `ang`: the rows of the table.
`sPrev` and `cPrev` are the contents of the two locals declared without initialiser. -/
def main (fuel : Nat) (ang sPrev cPrev : ℚ) : Option (List Row) :=
  tableLoop ang fuel 1 sPrev cPrev 1 1 []

/-- The sum of the sine power series over the odd exponents below `k`. -/
def sinPartial (k : Nat) (a : ℚ) : ℚ :=
  ∑ c ∈ (Finset.range k).filter (fun c => c % 2 = 1),
    (-1 : ℚ) ^ ((c - 1) / 2) * a ^ c / (c.factorial : ℚ)

/-- The sum of the cosine power series over the even exponents below `k`. -/
def cosPartial (k : Nat) (a : ℚ) : ℚ :=
  ∑ c ∈ (Finset.range k).filter (fun c => c % 2 = 0),
    (-1 : ℚ) ^ (c / 2) * a ^ c / (c.factorial : ℚ)

/-- The partial Taylor sum of sine made of the first `t` power-series terms. -/
def sinSeries (t : Int) (a : ℚ) : ℚ := sinPartial t.toNat a

/-- The partial Taylor sum of cosine made of the first `t` power-series terms. -/
def cosSeries (t : Int) (a : ℚ) : ℚ := cosPartial t.toNat a

/-- With `n` terms both estimates are within the threshold of the ones with `n - 1` terms:
`|sinTaylor(n,a) - sinTaylor(n-1,a)|` and `|cosTaylor(n,a) - cosTaylor(n-1,a)|` are at
most `0.000001`. -/
def converged (a : ℚ) (n : Nat) : Prop :=
  |sinTaylor n a - sinTaylor ((n : Int) - 1) a| ≤ 1 / 1000000
    ∧ |cosTaylor n a - cosTaylor ((n : Int) - 1) a| ≤ 1 / 1000000

/-- The row of the table for a term count: the two estimates and their quotient. -/
def expectedRow (a : ℚ) (terms : Int) : Row :=
  { terms := terms, s := sinTaylor terms a, c := cosTaylor terms a,
    t := if cosTaylor terms a = 0 then none else some (sinTaylor terms a / cosTaylor terms a) }

/-- The table for the term counts `1, ..., n`. -/
def expectedTable (a : ℚ) (n : Nat) : List Row :=
  (List.range n).map (fun i : Nat => expectedRow a ((i : Int) + 1))

end TrigC

/-! # `inventory.c`: the comparison of items, in exact arithmetic -/

namespace InventoryC

/-- The macro `INCHES_TO_METERS`. -/
def INCHES_TO_METERS : ℚ := 254 / 10000

/-- The struct `ImperialLength`. -/
structure ImperialLength where
  inches : Int
  numerator : Int
  denominator : Int
  deriving DecidableEq

/-- The union `length` of an `Item` together with its tag `mtype`. -/
inductive Length where
  /-- The tag is `metric`, the union holds `mval`. -/
  | metric (mval : ℚ)
  /-- The tag is `imperial`, the union holds `ival`. -/
  | imperial (ival : ImperialLength)
  deriving DecidableEq

/-- The struct `Item`. -/
structure Item where
  sku : Int
  length : Length
  deriving DecidableEq

/-- The expression `inches + (double) numerator / (double) denominator`; the quotient is
not defined for a zero denominator. -/
def mixedNumeral (l : ImperialLength) : Option ℚ :=
  if l.denominator = 0 then none
  else some ((l.inches : ℚ) + (l.numerator : ℚ) / (l.denominator : ℚ))

/-- The three-way test that ends every branch of `itemComp`. -/
def threeWay (lenA lenB : ℚ) : Int :=
  if lenA < lenB then -1
  else if lenA > lenB then 1
  else 0

/-- The function `itemComp`. -/
def itemComp (itemA itemB : Item) : Option Int :=
  match itemA.length, itemB.length with
  | .metric a, .metric b => some (threeWay a b)
  | .imperial a, .imperial b =>
    match mixedNumeral a, mixedNumeral b with
    | some lenA, some lenB => some (threeWay lenA lenB)
    | _, _ => none
  | .metric a, .imperial b =>
    match mixedNumeral b with
    | some inchesB => some (threeWay a (INCHES_TO_METERS * inchesB))
    | none => none
  | .imperial a, .metric b =>
    match mixedNumeral a with
    | some inchesA => some (threeWay (INCHES_TO_METERS * inchesA) b)
    | none => none

/-- The imperial denominator of the item, if it has one, is not zero. -/
def denominatorOk (item : Item) : Prop :=
  match item.length with
  | .metric _ => True
  | .imperial l => l.denominator ≠ 0

/-- The length of an item in meters; an imperial length is
`(inches + numerator / denominator) * 0.0254`. -/
def meters (item : Item) : ℚ :=
  match item.length with
  | .metric m => m
  | .imperial l => ((l.inches : ℚ) + (l.numerator : ℚ) / (l.denominator : ℚ)) * (254 / 10000)

/-- The order of two lengths: -1, 0 or 1 according as the first is less than, equal to
or greater than the second. -/
def lengthOrder (x y : ℚ) : Int :=
  if x < y then -1
  else if x = y then 0
  else 1

end InventoryC

/-! # `readAndPrint.c`: how many values the read stores -/

namespace ReadAndPrintC

/-- The number of elements of the array `double values[ 100 ]`. -/
def valuesCapacity : Nat := 100

/-- The value of `sizeof( double )`. -/
def sizeofDouble : Nat := 8

/-- The value of `sizeof( values )`, the size of the array in bytes. -/
def sizeofValues : Nat := valuesCapacity * sizeofDouble

/-- The return value of `fread(ptr, size, nmemb, stream)` on a stream with the given bytes
left (a list of byte values): the number of complete items read, at most `nmemb`. -/
def fread (size nmemb : Nat) (stream : List Nat) : Nat :=
  min nmemb (stream.length / size)

/-- The value of `c` in `main`: `fread( values, sizeof( double ), sizeof( values ), src )`. -/
def readCount (file : List Nat) : Nat := fread sizeofDouble sizeofValues file

/-- The indices `i` at which the output loop reads `values[ i ]`. -/
def indicesRead (file : List Nat) : List Nat := List.range (readCount file)

end ReadAndPrintC

namespace MathC

/-! ## Decimal numerals -/

theorem toDigitsCore_acc (fuel n : Nat) (ds : List Char) :
    Nat.toDigitsCore 10 fuel n ds = Nat.toDigitsCore 10 fuel n [] ++ ds := by
  induction fuel generalizing n ds with
  | zero => simp [Nat.toDigitsCore]
  | succ f ih =>
    simp only [Nat.toDigitsCore]
    split
    · simp
    · rw [ih _ (_ :: ds), ih _ [_]]; simp

theorem toDigitsCore_fuel (n : Nat) : ∀ fuel, n < fuel →
    Nat.toDigitsCore 10 fuel n [] = Nat.toDigitsCore 10 (n + 1) n [] := by
  induction n using Nat.strong_induction_on with
  | _ n ih =>
    intro fuel h
    obtain ⟨f, rfl⟩ : ∃ f, fuel = f + 1 := ⟨fuel - 1, by omega⟩
    simp only [Nat.toDigitsCore]
    split
    · rfl
    · rename_i h0
      have hlt : n / 10 < n := by omega
      rw [toDigitsCore_acc f, toDigitsCore_acc n, ih _ hlt f (by omega), ih _ hlt n (by omega)]

theorem decimal_of_lt {n : Nat} (h : n < 10) : decimal n = [Nat.digitChar n] := by
  have h0 : n / 10 = 0 := by omega
  have h1 : n % 10 = n := by omega
  simp [decimal, Nat.toDigits, Nat.toDigitsCore, h0, h1]

theorem decimal_of_ge {n : Nat} (h : 10 ≤ n) :
    decimal n = decimal (n / 10) ++ [Nat.digitChar (n % 10)] := by
  have h0 : n / 10 ≠ 0 := by omega
  have hlt : n / 10 < n := by omega
  unfold decimal Nat.toDigits
  rw [Nat.toDigitsCore]
  simp only [h0, if_false]
  rw [toDigitsCore_acc, toDigitsCore_fuel _ n hlt]

/-! ## Character classes -/

theorem digitChar_isdigit {d : Nat} (h : d < 10) : isdigit (Nat.digitChar d) = true := by
  interval_cases d <;> decide

theorem digitChar_value {d : Nat} (h : d < 10) :
    (Nat.digitChar d).toNat - '0'.toNat = d := by
  interval_cases d <;> decide

theorem isdigit_not_space {c : Char} (h : isdigit c = true) : isspace c = false := by
  cases hs : isspace c with
  | false => rfl
  | true =>
    simp only [isspace, Bool.or_eq_true, beq_iff_eq] at hs
    rcases hs with ((((rfl | rfl) | rfl) | rfl) | rfl) | rfl <;> revert h <;> decide

theorem isdigit_not_operator {c : Char} (h : isdigit c = true) : ¬ isOperator c := by
  rintro (rfl | rfl | rfl | rfl) <;> revert h <;> decide

theorem isdigit_ne_nul {c : Char} (h : isdigit c = true) : c ≠ '\x00' := by
  rintro rfl; revert h; decide

theorem isspace_not_operator {c : Char} (h : isspace c = true) : ¬ isOperator c := by
  rintro (rfl | rfl | rfl | rfl) <;> revert h <;> decide

theorem isspace_not_digit {c : Char} (h : isspace c = true) : isdigit c = false := by
  cases hd : isdigit c with
  | false => rfl
  | true => rw [isdigit_not_space hd] at h; exact absurd h (by decide)

theorem isspace_ne_nul {c : Char} (h : isspace c = true) : c ≠ '\x00' := by
  rintro rfl; revert h; decide

theorem isOperator_not_space {c : Char} (h : isOperator c) : isspace c = false := by
  rcases h with rfl | rfl | rfl | rfl <;> decide

theorem isOperator_ne_nul {c : Char} (h : isOperator c) : c ≠ '\x00' := by
  rcases h with rfl | rfl | rfl | rfl <;> decide

/-! ## Facts about decimal numerals -/

theorem decimal_isdigit (n : Nat) : ∀ c ∈ decimal n, isdigit c = true := by
  induction n using Nat.strong_induction_on with
  | _ n ih =>
    intro c hc
    by_cases h : n < 10
    · rw [decimal_of_lt h, List.mem_singleton] at hc
      subst hc; exact digitChar_isdigit h
    · rw [decimal_of_ge (by omega), List.mem_append, List.mem_singleton] at hc
      rcases hc with hc | rfl
      · exact ih (n / 10) (by omega) c hc
      · exact digitChar_isdigit (Nat.mod_lt _ (by decide))

theorem decimal_ne_nil (n : Nat) : decimal n ≠ [] := by
  by_cases h : n < 10
  · rw [decimal_of_lt h]; simp
  · rw [decimal_of_ge (by omega)]; simp

theorem digitsValue_snoc (ds : List Char) (c : Char) :
    digitsValue (ds ++ [c]) = digitsValue ds * 10 + (c.toNat - '0'.toNat) := by
  simp [digitsValue, List.foldl_append]

theorem digitsValue_decimal (n : Nat) : digitsValue (decimal n) = n := by
  induction n using Nat.strong_induction_on with
  | _ n ih =>
    by_cases h : n < 10
    · rw [decimal_of_lt h]
      simpa [digitsValue] using digitChar_value h
    · rw [decimal_of_ge (by omega), digitsValue_snoc, ih (n / 10) (by omega),
        digitChar_value (Nat.mod_lt _ (by decide))]
      omega

theorem numDigsLoop_ofNat (fuel : Nat) : ∀ (n c : Nat), n ≤ fuel →
    numDigsLoop fuel (n : Int) c = c + (if n = 0 then 0 else (decimal n).length) := by
  induction fuel with
  | zero =>
    intro n c h
    have : n = 0 := by omega
    simp [numDigsLoop, this]
  | succ f ih =>
    intro n c h
    by_cases h0 : n = 0
    · simp [numDigsLoop, h0]
    · have hne : ((n : Int) != 0) = true := by simpa using h0
      have hdiv : (n : Int).tdiv 10 = ((n / 10 : Nat) : Int) := by
        rw [Int.ofNat_tdiv]; rfl
      rw [numDigsLoop, if_pos hne, hdiv, ih (n / 10) (c + 1) (by omega)]
      by_cases h10 : n < 10
      · have : n / 10 = 0 := by omega
        simp [this, h0, decimal_of_lt h10]
      · have : n / 10 ≠ 0 := by omega
        simp [this, h0, decimal_of_ge (show 10 ≤ n by omega)]
        omega

/-- On a positive number `numDigs` is the length of the decimal numeral. -/
theorem numDigs_ofNat {n : Nat} (h : 0 < n) : numDigs (n : Int) = (decimal n).length := by
  have := numDigsLoop_ofNat n n 0 (by simp)
  simpa [numDigs, Nat.pos_iff_ne_zero.mp h] using this

/-! ## Scanning a rendered token -/

theorem skipSpace_cons_of_not_space {c : Char} (cs : List Char) (h : isspace c = false) :
    skipSpace (c :: cs) = c :: cs := by
  simp [skipSpace, h]

theorem takeWhile_append_stops (p : Char → Bool) (a rest : List Char)
    (ha : ∀ c ∈ a, p c = true) (hr : ∀ c, rest.head? = some c → p c = false) :
    (a ++ rest).takeWhile p = a := by
  induction a with
  | nil =>
    cases rest with
    | nil => rfl
    | cons c cs => simp [List.takeWhile, hr c rfl]
  | cons x xs ih =>
    have hx : p x = true := ha x (List.mem_cons_self _ _)
    rw [List.cons_append, List.takeWhile_cons, if_pos hx,
      ih (fun c hc => ha c (List.mem_cons_of_mem _ hc))]

theorem scanInt_decimal (n : Nat) (rest : List Char) (hn : (n : Int) ≤ INT_MAX)
    (hr : stops rest) : scanInt (decimal n ++ rest) = .assigned n := by
  obtain ⟨d, ds, hd⟩ : ∃ d ds, decimal n = d :: ds := by
    cases h : decimal n with
    | nil => exact absurd h (decimal_ne_nil n)
    | cons d ds => exact ⟨d, ds, rfl⟩
  have hdig : isdigit d = true := decimal_isdigit n d (by rw [hd]; exact List.mem_cons_self _ _)
  have hminus : (d == '-') = false := by
    rw [beq_eq_false_iff_ne]; rintro rfl; revert hdig; decide
  have hplus : (d == '+') = false := by
    rw [beq_eq_false_iff_ne]; rintro rfl; revert hdig; decide
  have htake : (d :: (ds ++ rest)).takeWhile isdigit = decimal n := by
    have := takeWhile_append_stops isdigit (decimal n) rest (decimal_isdigit n) hr
    rw [hd] at this
    rw [hd]; exact this
  have hrange : inIntRange ((digitsValue (decimal n) : Nat) : Int) := by
    rw [digitsValue_decimal]
    exact ⟨by unfold INT_MIN; omega, hn⟩
  unfold scanInt
  rw [hd, List.cons_append, skipSpace_cons_of_not_space _ (isdigit_not_space hdig)]
  simp only [hminus, hplus, Bool.or_self, Bool.false_eq_true, if_false, htake]
  rw [if_neg (by simpa using decimal_ne_nil n), if_pos hrange, digitsValue_decimal]

theorem sscanf_c_d_pair (o : Char) (n : Nat) (rest : List Char) (ho : isspace o = false)
    (hn : (n : Int) ≤ INT_MAX) (hr : stops rest) :
    sscanf_c_d (' ' :: o :: ' ' :: (decimal n ++ rest)) = (some o, .assigned n) := by
  have h1 : skipSpace (' ' :: o :: ' ' :: (decimal n ++ rest)) = o :: ' ' :: (decimal n ++ rest) := by
    rw [skipSpace, if_pos (by decide), skipSpace_cons_of_not_space _ ho]
  have h2 : skipSpace (' ' :: (decimal n ++ rest)) = decimal n ++ rest := by
    rw [skipSpace, if_pos (by decide)]
    cases h : decimal n with
    | nil => exact absurd h (decimal_ne_nil n)
    | cons d ds =>
      have hdig : isdigit d = true :=
        decimal_isdigit n d (by rw [h]; exact List.mem_cons_self _ _)
      rw [List.cons_append, skipSpace_cons_of_not_space _ (isdigit_not_space hdig)]
  unfold sscanf_c_d
  rw [h1]
  simp only [h2, scanInt_decimal n rest hn hr]

theorem stops_nil : stops [] := by
  intro c h; simp at h

theorem stops_cons {c : Char} (cs : List Char) (h : isdigit c = false) : stops (c :: cs) := by
  intro x hx
  simp only [List.head?_cons, Option.some.injEq] at hx
  rw [← hx]; exact h

theorem stops_renderTail_append (ps : List (Char × Nat)) (tail : List Char) (ht : stops tail) :
    stops (renderTail ps ++ tail) := by
  cases ps with
  | nil => simpa [renderTail] using ht
  | cons p r =>
    obtain ⟨o, n⟩ := p
    exact stops_cons _ (by decide)

theorem stops_of_blank (tail : List Char) (ht : ∀ c ∈ tail, isspace c = true) : stops tail := by
  intro c hc
  cases tail with
  | nil => simp at hc
  | cons x xs =>
    simp only [List.head?_cons, Option.some.injEq] at hc
    subst hc
    exact isspace_not_digit (ht _ (List.mem_cons_self _ _))

/-! ## Counting operators -/

theorem countOperators_foldl (s : List Char) (k : Nat) :
    s.foldl (fun numOperators c =>
      if c = '+' ∨ c = '-' ∨ c = '*' ∨ c = '/' then numOperators + 1 else numOperators) k
      = k + countOperators s := by
  induction s generalizing k with
  | nil => simp [countOperators]
  | cons c cs ih =>
    have h0 := ih (if c = '+' ∨ c = '-' ∨ c = '*' ∨ c = '/' then 0 + 1 else 0)
    have hk := ih (if c = '+' ∨ c = '-' ∨ c = '*' ∨ c = '/' then k + 1 else k)
    unfold countOperators
    simp only [List.foldl_cons]
    rw [h0, hk]
    split <;> omega

theorem countOperators_nil : countOperators [] = 0 := rfl

theorem countOperators_cons (c : Char) (cs : List Char) :
    countOperators (c :: cs) = (if isOperator c then 1 else 0) + countOperators cs := by
  unfold countOperators isOperator
  simp only [List.foldl_cons]
  rw [countOperators_foldl]
  unfold countOperators
  split <;> simp

theorem countOperators_append (a b : List Char) :
    countOperators (a ++ b) = countOperators a + countOperators b := by
  induction a with
  | nil => simp [countOperators_nil]
  | cons c cs ih => simp only [List.cons_append, countOperators_cons, ih]; omega

theorem countOperators_eq_zero (a : List Char) (h : ∀ c ∈ a, ¬ isOperator c) :
    countOperators a = 0 := by
  induction a with
  | nil => rfl
  | cons c cs ih =>
    rw [countOperators_cons, if_neg (h c (List.mem_cons_self _ _)),
      ih (fun x hx => h x (List.mem_cons_of_mem _ hx))]

theorem countOperators_decimal (n : Nat) : countOperators (decimal n) = 0 :=
  countOperators_eq_zero _ (fun c hc => isdigit_not_operator (decimal_isdigit n c hc))

theorem countOperators_renderTail (ps : List (Char × Nat)) (h : ∀ p ∈ ps, isOperator p.1) :
    countOperators (renderTail ps) = ps.length := by
  induction ps with
  | nil => rfl
  | cons p r ih =>
    obtain ⟨o, n⟩ := p
    have ho : isOperator o := h (o, n) (List.mem_cons_self _ _)
    have hsp : ¬ isOperator ' ' := by decide
    simp only [renderTail, countOperators_cons, countOperators_append, countOperators_decimal,
      if_pos ho, if_neg hsp, ih (fun x hx => h x (List.mem_cons_of_mem _ hx)), List.length_cons]
    omega

/-! ## Strings without NUL -/

theorem cstr_eq_self (s : List Char) (h : ∀ c ∈ s, c ≠ '\x00') : cstr s = s := by
  unfold cstr
  rw [List.takeWhile_eq_self_iff]
  intro c hc
  simpa using h c hc

theorem decimal_ne_nul (n : Nat) : ∀ c ∈ decimal n, c ≠ '\x00' :=
  fun c hc => isdigit_ne_nul (decimal_isdigit n c hc)

theorem renderTail_ne_nul (ps : List (Char × Nat)) (h : ∀ p ∈ ps, isOperator p.1) :
    ∀ c ∈ renderTail ps, c ≠ '\x00' := by
  induction ps with
  | nil => intro c hc; simp [renderTail] at hc
  | cons p r ih =>
    obtain ⟨o, n⟩ := p
    intro c hc
    simp only [renderTail, List.mem_cons, List.mem_append] at hc
    rcases hc with rfl | rfl | rfl | hc | hc
    · decide
    · exact isOperator_ne_nul (h (c, n) (List.mem_cons_self _ _))
    · decide
    · exact decimal_ne_nul n c hc
    · exact ih (fun x hx => h x (List.mem_cons_of_mem _ hx)) c hc

/-! ## The loop on a rendered expression -/

theorem spawnAndWait_offset {fork : Nat → Option Nat} {i : Nat} {o : Char} {n : Int}
    {st st' : State} (h : spawnAndWait fork i o n st = .ok st') :
    st'.offset = st.offset + (3 + numDigs n) := by
  unfold spawnAndWait at h
  split at h
  · split at h
    · exact absurd h (by simp)
    · simp only [Except.ok.injEq] at h
      rw [← h]
  · simp only [Except.ok.injEq] at h
    rw [← h]

theorem iteration_at_pair (fork : Nat → Option Nat) (pre rest : List Char) (o : Char) (n : Nat)
    (i : Nat) (st : State) (hoff : st.offset = pre.length) (ho : isspace o = false)
    (hn : (n : Int) ≤ INT_MAX) (hr : stops rest) :
    iteration fork (pre ++ ' ' :: o :: ' ' :: (decimal n ++ rest)) i st
      = spawnAndWait fork i o n st := by
  unfold iteration
  rw [if_neg (by rw [hoff, List.length_append]; omega), hoff, List.drop_left,
    sscanf_c_d_pair o n rest ho hn hr]
  rfl

theorem loop_eq_tokenLoop (fork : Nat → Option Nat) (tail : List Char) (ht : stops tail) :
    ∀ (ps : List (Char × Nat)) (pre : List Char) (i : Nat) (st : State),
      (∀ p ∈ ps, isspace p.1 = false ∧ isPositiveInt p.2) → st.offset = pre.length →
      loop fork (pre ++ (renderTail ps ++ tail)) ps.length i st = tokenLoop fork ps i st := by
  intro ps
  induction ps with
  | nil => intro pre i st _ _; rfl
  | cons p r ih =>
    obtain ⟨o, n⟩ := p
    intro pre i st hps hoff
    obtain ⟨ho, hpos, hn⟩ := hps (o, n) (List.mem_cons_self _ _)
    have hiter := iteration_at_pair fork pre (renderTail r ++ tail) o n i st hoff ho hn
      (stops_renderTail_append r tail ht)
    have htext : pre ++ (renderTail ((o, n) :: r) ++ tail)
        = pre ++ ' ' :: o :: ' ' :: (decimal n ++ (renderTail r ++ tail)) := by
      simp [renderTail]
    rw [List.length_cons, loop, tokenLoop, htext, hiter]
    cases hsw : spawnAndWait fork i o n st with
    | error u => rfl
    | ok st' =>
      have hoff' : st'.offset = (pre ++ ' ' :: o :: ' ' :: decimal n).length := by
        rw [spawnAndWait_offset hsw, hoff, numDigs_ofNat hpos]
        simp only [List.length_append, List.length_cons]
        omega
      have := ih (pre ++ ' ' :: o :: ' ' :: decimal n) (i + 1) st'
        (fun q hq => hps q (List.mem_cons_of_mem _ hq)) hoff'
      simp only [List.append_assoc, List.cons_append] at this
      exact this

theorem loop_add (fork : Nat → Option Nat) (s : List Char) (b : Nat) :
    ∀ (a i : Nat) (st : State),
      loop fork s (a + b) i st
        = (loop fork s a i st).bind (fun st' => loop fork s b (i + a) st') := by
  intro a
  induction a with
  | zero => intro i st; simp [loop, Except.bind]
  | succ a ih =>
    intro i st
    rw [show a + 1 + b = (a + b) + 1 by omega, loop, loop]
    cases iteration fork s i st with
    | error u => rfl
    | ok st' =>
      simp only [ih (i + 1) st']
      rw [show i + 1 + a = i + (a + 1) by omega]

theorem start_decimal (env : Env) (n0 : Nat) (rest : List Char) (h0 : isPositiveInt n0)
    (hr : stops rest) : start env (decimal n0 ++ rest) = .ok (startState env n0) := by
  unfold start sscanf_d
  rw [scanInt_decimal n0 rest h0.2 hr]
  simp only [Conv.store, startState, numDigs_ofNat h0.1]

/-- Evaluating a well-formed expression followed by arbitrary text `tail` (free of NUL, not
starting with a digit): the loop runs the tokens, then once more for every operator
character of `tail`. -/
theorem evaluateExpression_render (env : Env) (n0 : Nat) (rest : List (Char × Nat))
    (tail : List Char) (hwf : wellFormed n0 rest) (ht : stops tail)
    (hnul : ∀ c ∈ tail, c ≠ '\x00') :
    evaluateExpression env (render n0 rest ++ tail)
      = (tokenLoop env.fork rest 0 (startState env n0)).bind
          (fun st => loop env.fork (render n0 rest ++ tail) (countOperators tail)
            rest.length st) := by
  have hops : ∀ p ∈ rest, isOperator p.1 := fun p hp => (hwf.2 p hp).1
  have hc : cstr (render n0 rest ++ tail) = decimal n0 ++ (renderTail rest ++ tail) := by
    rw [cstr_eq_self, render, List.append_assoc]
    intro c hc
    simp only [render, List.mem_append] at hc
    rcases hc with (hc | hc) | hc
    · exact decimal_ne_nul n0 c hc
    · exact renderTail_ne_nul rest hops c hc
    · exact hnul c hc
  have hcount : countOperators (decimal n0 ++ (renderTail rest ++ tail))
      = rest.length + countOperators tail := by
    rw [countOperators_append, countOperators_append, countOperators_decimal,
      countOperators_renderTail rest hops]
    omega
  have htext : render n0 rest ++ tail = decimal n0 ++ (renderTail rest ++ tail) := by
    rw [render, List.append_assoc]
  unfold evaluateExpression
  simp only [hc, start_decimal env n0 _ hwf.1 (stops_renderTail_append rest tail ht), hcount]
  rw [loop_add, htext,
    loop_eq_tokenLoop env.fork tail ht rest (decimal n0) 0 (startState env n0)
      (fun p hp => ⟨isOperator_not_space (hwf.2 p hp).1, (hwf.2 p hp).2⟩) rfl]
  simp


/-! ## One worker -/

theorem WEXITSTATUS_W_EXITCODE (code : Int) : WEXITSTATUS (W_EXITCODE code) = code % 256 := by
  unfold WEXITSTATUS W_EXITCODE
  rw [Int.mul_ediv_cancel _ (by decide), Int.emod_emod_of_dvd _ (dvd_refl _)]

theorem spawnAndWait_ret {fork : Nat → Option Nat} {i pid : Nat} {o : Char} {n r : Int}
    {st : State} (hf : fork i = some pid) (hc : performCalculation o st.num1 n = .ret r) :
    spawnAndWait fork i o n st
      = .ok { num1 := r % 256, num2 := n, operator := o, result := W_EXITCODE r,
              offset := st.offset + (3 + numDigs n),
              trace := st.trace ++ [.forked pid o st.num1 n, .workerLine pid st.num1 o n r,
                .reaped pid (W_EXITCODE r)] } := by
  simp [spawnAndWait, worker, hf, hc, WEXITSTATUS_W_EXITCODE]

theorem spawnAndWait_exitFailure {fork : Nat → Option Nat} {i pid : Nat} {o : Char} {n : Int}
    {e : CalcError} {st : State} (hf : fork i = some pid)
    (hc : performCalculation o st.num1 n = .exitFailure e) :
    spawnAndWait fork i o n st
      = .ok { num1 := 1, num2 := n, operator := o, result := 256,
              offset := st.offset + (3 + numDigs n),
              trace := st.trace ++ [.forked pid o st.num1 n, .workerError pid e,
                .reaped pid 256] } := by
  simp [spawnAndWait, worker, hf, hc, WEXITSTATUS, W_EXITCODE, EXIT_FAILURE]

theorem tokenLoop_leftFold (fork : Nat → Option Nat) (hfork : ∀ i, (fork i).isSome = true) :
    ∀ (ps : List (Char × Nat)) (i : Nat) (st : State), resultsInByte st.num1 ps →
      ∃ st', tokenLoop fork ps i st = .ok st' ∧ leftFold st.num1 ps = .ret st'.num1 := by
  intro ps
  induction ps with
  | nil => intro i st _; exact ⟨st, rfl, rfl⟩
  | cons p r ih =>
    obtain ⟨o, n⟩ := p
    intro i st hb
    obtain ⟨v, hv, hlo, hhi, hrest⟩ := hb
    obtain ⟨pid, hpid⟩ := Option.isSome_iff_exists.mp (hfork i)
    have hmod : v % 256 = v := Int.emod_eq_of_lt hlo (by omega)
    obtain ⟨st', hst', hfold⟩ := ih (i + 1)
      { num1 := v % 256, num2 := n, operator := o, result := W_EXITCODE v,
        offset := st.offset + (3 + numDigs n),
        trace := st.trace ++ [.forked pid o st.num1 n, .workerLine pid st.num1 o n v,
          .reaped pid (W_EXITCODE v)] } (by simpa [hmod] using hrest)
    refine ⟨st', ?_, ?_⟩
    · rw [tokenLoop, spawnAndWait_ret hpid hv]
      exact hst'
    · rw [leftFold, hv]
      simpa [hmod] using hfold

/-! ## Claims -/

/-- C1 (as amended). `evaluateExpression` evaluates strictly left to right, without
precedence: on the text `n0 op1 n1 ... opk nk` (positive `int`s, the four operators,
single spaces, optionally followed by white space such as the newline `fgets` keeps),
when every `fork` succeeds and every result of the left fold, the final one included,
lies in `0..255`, the call returns the left fold `(((n0 op1 n1) op2 n2) ... opk nk)` of
`performCalculation`.  (Divisors are positive here, so none is zero.) -/
theorem evaluateExpression_left_to_right (env : Env) (n0 : Nat) (rest : List (Char × Nat))
    (tail : List Char) (hwf : wellFormed n0 rest) (hfork : ∀ i, (env.fork i).isSome = true)
    (htail : ∀ c ∈ tail, isspace c = true) (hbyte : resultsInByte n0 rest) :
    ∃ st, evaluateExpression env (render n0 rest ++ tail) = .ok st
      ∧ leftFold n0 rest = .ret st.num1 := by
  obtain ⟨st, hst, hfold⟩ :=
    tokenLoop_leftFold env.fork hfork rest 0 (startState env n0) hbyte
  refine ⟨st, ?_, hfold⟩
  rw [evaluateExpression_render env n0 rest tail hwf (stops_of_blank tail htail)
      (fun c hc => isspace_ne_nul (htail c hc)),
    countOperators_eq_zero tail (fun c hc => isspace_not_operator (htail c hc)), hst]
  rfl

/-- Witness for C1: `"10 - 2 * 3"` is evaluated as `(10 - 2) * 3 = 24`, not as
`10 - (2 * 3) = 4`, and `"3 + 4"` gives `7`. -/
theorem evaluateExpression_left_to_right_witness :
    (wellFormed 10 [('-', 2), ('*', 3)] ∧ resultsInByte 10 [('-', 2), ('*', 3)]
      ∧ leftFold 10 [('-', 2), ('*', 3)] = .ret 24
      ∧ ∃ st, evaluateExpression sampleEnv "10 - 2 * 3".toList = .ok st
          ∧ leftFold 10 [('-', 2), ('*', 3)] = .ret st.num1)
    ∧ (leftFold 3 [('+', 4)] = .ret 7
      ∧ ∃ st, evaluateExpression sampleEnv "3 + 4\n".toList = .ok st
          ∧ leftFold 3 [('+', 4)] = .ret st.num1) :=
  have hb : resultsInByte 10 [('-', 2), ('*', 3)] :=
    ⟨8, rfl, by decide, by decide, 24, rfl, by decide, by decide, trivial⟩
  ⟨⟨by decide, hb, rfl,
      evaluateExpression_left_to_right sampleEnv 10 [('-', 2), ('*', 3)] [] (by decide)
        (fun _ => rfl) (by simp) hb⟩,
    rfl,
    evaluateExpression_left_to_right sampleEnv 3 [('+', 4)] ['\n'] (by decide)
      (fun _ => rfl) (by decide) ⟨7, rfl, by decide, by decide, trivial⟩⟩

/-- C1 as stated fails on `"100 + 100 + 100"`: the only intermediate result, 200, lies in
`0..255`, the left fold is 300, and the call returns 44, the final result having passed
through the exit status as well.  It also fails on `"8 - 3 * 2 + 1"` when the second
`fork` fails: every result of the fold, 5, 10 and 11, lies in `0..255`, and the call
returns 6. -/
theorem evaluateExpression_left_to_right_counterexample :
    (wellFormed 100 [('+', 100), ('+', 100)]
      ∧ intermediateInByte 100 [('+', 100), ('+', 100)]
      ∧ leftFold 100 [('+', 100), ('+', 100)] = .ret 300
      ∧ ∃ st, evaluateExpression sampleEnv "100 + 100 + 100".toList = .ok st ∧ st.num1 = 44)
    ∧ (wellFormed 8 [('-', 3), ('*', 2), ('+', 1)]
      ∧ resultsInByte 8 [('-', 3), ('*', 2), ('+', 1)]
      ∧ leftFold 8 [('-', 3), ('*', 2), ('+', 1)] = .ret 11
      ∧ ∃ st, evaluateExpression flakyEnv "8 - 3 * 2 + 1".toList = .ok st ∧ st.num1 = 6) :=
  ⟨⟨by decide, ⟨200, rfl, by decide, by decide, trivial⟩, rfl, _, rfl, rfl⟩,
    ⟨by decide,
      ⟨5, rfl, by decide, by decide, 10, rfl, by decide, by decide, 11, rfl, by decide,
        by decide, trivial⟩,
      rfl, _, rfl, rfl⟩⟩

/-! ## The run of the workers -/

theorem spawnAndWait_adopted {fork : Nat → Option Nat} {i pid : Nat} {o : Char} {n v : Int}
    {st : State} (hf : fork i = some pid)
    (hv : adopted (performCalculation o st.num1 n) = some v) :
    ∃ st', spawnAndWait fork i o n st = .ok st' ∧ st'.num1 = v
      ∧ st'.offset = st.offset + (3 + numDigs n)
      ∧ spawned st'.trace = spawned st.trace ++ [(o, n)]
      ∧ reaps st'.trace = reaps st.trace + 1 := by
  cases hc : performCalculation o st.num1 n with
  | ret r =>
    rw [hc] at hv
    simp only [adopted, Option.some.injEq, WEXITSTATUS_W_EXITCODE] at hv
    refine ⟨_, spawnAndWait_ret hf hc, hv, rfl, ?_, ?_⟩
    · simp [spawned, Event.spawn, List.filterMap_append]
    · simp [reaps, Event.isReap, List.countP_append, List.countP_cons]
  | exitFailure e =>
    rw [hc] at hv
    simp only [adopted, Option.some.injEq, WEXITSTATUS_W_EXITCODE] at hv
    refine ⟨_, spawnAndWait_exitFailure hf hc, ?_, rfl, ?_, ?_⟩
    · rw [← hv]; rfl
    · simp [spawned, Event.spawn, List.filterMap_append]
    · simp [reaps, Event.isReap, List.countP_append, List.countP_cons]
  | undefined =>
    rw [hc] at hv
    exact absurd hv (by simp [adopted])

theorem tokenLoop_run (fork : Nat → Option Nat) (hfork : ∀ i, (fork i).isSome = true) :
    ∀ (ps : List (Char × Nat)) (i : Nat) (st : State),
      (∀ p ∈ ps, isPositiveInt p.2) → noOverflow st.num1 ps →
      ∃ st', tokenLoop fork ps i st = .ok st'
        ∧ st'.offset = st.offset + (renderTail ps).length
        ∧ spawned st'.trace = spawned st.trace ++ ps.map (fun p => (p.1, (p.2 : Int)))
        ∧ reaps st'.trace = reaps st.trace + ps.length := by
  intro ps
  induction ps with
  | nil => intro i st _ _; exact ⟨st, rfl, by simp [renderTail], by simp, by simp⟩
  | cons p r ih =>
    obtain ⟨o, n⟩ := p
    intro i st hpos hno
    obtain ⟨v, hv, hrest⟩ := hno
    obtain ⟨pid, hpid⟩ := Option.isSome_iff_exists.mp (hfork i)
    obtain ⟨st1, hst1, hnum, hoff, hsp, hre⟩ := spawnAndWait_adopted hpid hv
    obtain ⟨st', hst', hoff', hsp', hre'⟩ := ih (i + 1) st1
      (fun q hq => hpos q (List.mem_cons_of_mem _ hq)) (by rw [hnum]; exact hrest)
    refine ⟨st', ?_, ?_, ?_, ?_⟩
    · rw [tokenLoop, hst1]; exact hst'
    · rw [hoff', hoff, numDigs_ofNat (hpos (o, n) (List.mem_cons_self _ _)).1]
      simp only [renderTail, List.length_cons, List.length_append]
      omega
    · rw [hsp', hsp]; simp
    · rw [hre', hre, List.length_cons]; omega

theorem renderTail_append (a b : List (Char × Nat)) :
    renderTail (a ++ b) = renderTail a ++ renderTail b := by
  induction a with
  | nil => rfl
  | cons p r ih => obtain ⟨o, n⟩ := p; simp [renderTail, ih]

theorem noOverflow_append_left (a b : List (Char × Nat)) :
    ∀ acc, noOverflow acc (a ++ b) → noOverflow acc a := by
  induction a with
  | nil => intro acc _; trivial
  | cons p r ih =>
    obtain ⟨o, n⟩ := p
    intro acc h
    obtain ⟨v, hv, hrest⟩ := h
    exact ⟨v, hv, ih v hrest⟩

theorem cstr_render (n0 : Nat) (rest : List (Char × Nat)) (tail : List Char)
    (hwf : wellFormed n0 rest) (htail : ∀ c ∈ tail, isspace c = true) :
    cstr (render n0 rest ++ tail) = render n0 rest ++ tail := by
  apply cstr_eq_self
  intro c hc
  simp only [render, List.mem_append] at hc
  rcases hc with (hc | hc) | hc
  · exact decimal_ne_nul n0 c hc
  · exact renderTail_ne_nul rest (fun p hp => (hwf.2 p hp).1) c hc
  · exact isspace_ne_nul (htail c hc)

theorem countOperators_render (n0 : Nat) (rest : List (Char × Nat)) (tail : List Char)
    (hwf : wellFormed n0 rest) (htail : ∀ c ∈ tail, isspace c = true) :
    countOperators (render n0 rest ++ tail) = rest.length := by
  rw [render, countOperators_append, countOperators_append, countOperators_decimal,
    countOperators_renderTail rest (fun p hp => (hwf.2 p hp).1),
    countOperators_eq_zero tail (fun c hc => isspace_not_operator (htail c hc))]
  omega

/-- C4 (as amended). For every expression `n0 op1 n1 ... opN nN` of positive `int`s and the
four operators (optionally followed by white space), when every `fork` succeeds and no
worker overflows: the operator count computed before the loop is `N`, the driver creates
exactly `N` workers, the `k`-th of them with the `k`-th operator and its right operand,
and it collects exactly `N` results. -/
theorem one_worker_per_operator (env : Env) (n0 : Nat) (rest : List (Char × Nat))
    (tail : List Char) (hwf : wellFormed n0 rest) (hfork : ∀ i, (env.fork i).isSome = true)
    (htail : ∀ c ∈ tail, isspace c = true) (hover : noOverflow n0 rest) :
    countOperators (cstr (render n0 rest ++ tail)) = rest.length
      ∧ ∃ st, evaluateExpression env (render n0 rest ++ tail) = .ok st
          ∧ spawned st.trace = rest.map (fun p => (p.1, (p.2 : Int)))
          ∧ reaps st.trace = rest.length := by
  refine ⟨by rw [cstr_render n0 rest tail hwf htail, countOperators_render n0 rest tail hwf htail],
    ?_⟩
  obtain ⟨st, hst, _, hsp, hre⟩ := tokenLoop_run env.fork hfork rest 0 (startState env n0)
    (fun p hp => (hwf.2 p hp).2) hover
  refine ⟨st, ?_, by simpa [startState, spawned] using hsp, by simpa [startState, reaps] using hre⟩
  rw [evaluateExpression_render env n0 rest tail hwf (stops_of_blank tail htail)
      (fun c hc => isspace_ne_nul (htail c hc)),
    countOperators_eq_zero tail (fun c hc => isspace_not_operator (htail c hc)), hst]
  rfl

/-- Witness for C4 on `"10 - 2 * 3"`: two operators, two workers, two results. -/
theorem one_worker_per_operator_witness :
    wellFormed 10 [('-', 2), ('*', 3)] ∧ noOverflow 10 [('-', 2), ('*', 3)]
      ∧ countOperators (cstr (render 10 [('-', 2), ('*', 3)] ++ ['\n'])) = 2
      ∧ ∃ st, evaluateExpression sampleEnv "10 - 2 * 3\n".toList = .ok st
          ∧ spawned st.trace = [('-', 2), ('*', 3)] ∧ reaps st.trace = 2 :=
  have ho : noOverflow 10 [('-', 2), ('*', 3)] := ⟨8, rfl, 24, rfl, trivial⟩
  ⟨by decide, ho,
    one_worker_per_operator sampleEnv 10 [('-', 2), ('*', 3)] ['\n'] (by decide)
      (fun _ => rfl) (by decide) ho⟩

/-- C4 as stated fails on `"3 + -4"`, an expression of two integers and one operator:
the count computed before the loop is 2, and two workers are created and collected, the
second one with the digit `4` as its operator.  It also fails on `"5 + 0 + 3"`, where the
second worker is created with the digit `0` instead of the second `+`. -/
theorem one_worker_per_operator_counterexample :
    (countOperators (cstr "3 + -4".toList) = 2
      ∧ ∃ st, evaluateExpression sampleEnv "3 + -4".toList = .ok st
          ∧ spawned st.trace = [('+', -4), ('4', -4)] ∧ reaps st.trace = 2)
    ∧ (∃ st, evaluateExpression sampleEnv "5 + 0 + 3".toList = .ok st
          ∧ spawned st.trace = [('+', 0), ('0', 0)]) :=
  ⟨⟨rfl, _, rfl, rfl, rfl⟩, ⟨_, rfl, rfl⟩⟩

/-- C9 (as amended). The cursor of the tokenizer, on an expression `n0 op1 n1 ... opN nN`
of positive `int`s and the four operators (every `fork` succeeding, no worker
overflowing): after the leading integer is parsed (`k = 0`) and after each of the first
`k` pairs is consumed, the offset is the length of the text consumed so far, and the
`sscanf` at that cursor reads exactly the next operator and its right operand. -/
theorem cursor_on_next_operator (env : Env) (n0 : Nat) (rest : List (Char × Nat))
    (tail : List Char) (hwf : wellFormed n0 rest) (hfork : ∀ i, (env.fork i).isSome = true)
    (htail : ∀ c ∈ tail, isspace c = true) (hover : noOverflow n0 rest)
    (k : Nat) (hk : k < rest.length) :
    ∃ st0 st, start env (cstr (render n0 rest ++ tail)) = .ok st0
      ∧ loop env.fork (cstr (render n0 rest ++ tail)) k 0 st0 = .ok st
      ∧ st.offset = (render n0 (rest.take k)).length
      ∧ sscanf_c_d ((cstr (render n0 rest ++ tail)).drop st.offset)
          = (some (rest.get ⟨k, hk⟩).1, .assigned (rest.get ⟨k, hk⟩).2) := by
  have hsplit : rest.take k ++ rest.drop k = rest := List.take_append_drop k rest
  have hdrop : rest.drop k = rest.get ⟨k, hk⟩ :: rest.drop (k + 1) := List.drop_eq_getElem_cons hk
  have hmem : rest.get ⟨k, hk⟩ ∈ rest := List.get_mem rest k hk
  obtain ⟨ho, _, hn⟩ := hwf.2 _ hmem
  have hlen : (rest.take k).length = k := by rw [List.length_take]; omega
  have hstops : stops (renderTail (rest.drop k) ++ tail) :=
    stops_renderTail_append _ tail (stops_of_blank tail htail)
  have htext : render n0 rest ++ tail
      = decimal n0 ++ (renderTail (rest.take k) ++ (renderTail (rest.drop k) ++ tail)) := by
    rw [render, List.append_assoc, ← List.append_assoc (renderTail _), ← renderTail_append, hsplit]
  have hover' : noOverflow n0 (rest.take k) :=
    noOverflow_append_left (rest.take k) (rest.drop k) n0 (by rw [hsplit]; exact hover)
  have hwf' : ∀ p ∈ rest.take k, isOperator p.1 ∧ isPositiveInt p.2 :=
    fun p hp => hwf.2 p (List.mem_of_mem_take hp)
  obtain ⟨st, hst, hoff, _, _⟩ := tokenLoop_run env.fork hfork (rest.take k) 0
    (startState env n0) (fun p hp => (hwf' p hp).2) hover'
  have hloop := loop_eq_tokenLoop env.fork (renderTail (rest.drop k) ++ tail) hstops
    (rest.take k) (decimal n0) 0 (startState env n0)
    (fun p hp => ⟨isOperator_not_space (hwf' p hp).1, (hwf' p hp).2⟩) rfl
  rw [hlen] at hloop
  have hoff' : st.offset = (render n0 (rest.take k)).length := by
    rw [hoff, render, List.length_append]; rfl
  refine ⟨startState env n0, st, ?_, ?_, hoff', ?_⟩
  · rw [cstr_render n0 rest tail hwf htail, render, List.append_assoc]
    exact start_decimal env n0 _ hwf.1 (stops_renderTail_append rest tail (stops_of_blank tail htail))
  · rw [cstr_render n0 rest tail hwf htail, htext, hloop, hst]
  · have hcut : render n0 rest ++ tail
        = render n0 (rest.take k) ++ (renderTail (rest.drop k) ++ tail) := by
      rw [htext, render, List.append_assoc]
    rw [cstr_render n0 rest tail hwf htail, hcut, List.drop_left' hoff'.symm, hdrop, renderTail,
      List.cons_append, List.cons_append, List.cons_append, List.append_assoc]
    exact sscanf_c_d_pair _ _ _ (isOperator_not_space ho) hn
      (stops_renderTail_append _ tail (stops_of_blank tail htail))

/-- Witness for C9 on `"10 - 2 * 3"`: after the first pair the cursor is at offset 6, where
the `sscanf` reads `*` and `3`. -/
theorem cursor_on_next_operator_witness :
    wellFormed 10 [('-', 2), ('*', 3)] ∧ noOverflow 10 [('-', 2), ('*', 3)]
      ∧ ∃ st0 st, start sampleEnv (cstr "10 - 2 * 3\n".toList) = .ok st0
          ∧ loop sampleEnv.fork (cstr "10 - 2 * 3\n".toList) 1 0 st0 = .ok st
          ∧ st.offset = 6
          ∧ sscanf_c_d ((cstr "10 - 2 * 3\n".toList).drop st.offset)
              = (some '*', .assigned 3) :=
  have ho : noOverflow 10 [('-', 2), ('*', 3)] := ⟨8, rfl, 24, rfl, trivial⟩
  ⟨by decide, ho,
    cursor_on_next_operator sampleEnv 10 [('-', 2), ('*', 3)] ['\n'] (by decide)
      (fun _ => rfl) (by decide) ho 1 (by decide)⟩

/-- C9 as stated fails on `"-3 + 4"`: after the leading integer `-3` is parsed the offset
is 1, the digit count of `-3`, and the `sscanf` at that cursor reads the digit `3` as the
operator and no operand.  It also fails on `"5 + 0 + 3"`: after the pair `+ 0` is consumed
the offset is 4, where the `sscanf` reads the digit `0` as the operator. -/
theorem cursor_on_next_operator_counterexample :
    (∃ st0, start sampleEnv (cstr "-3 + 4".toList) = .ok st0 ∧ st0.num1 = -3 ∧ st0.offset = 1
      ∧ sscanf_c_d ((cstr "-3 + 4".toList).drop st0.offset) = (some '3', .unassigned))
    ∧ (∃ st0 st, start sampleEnv (cstr "5 + 0 + 3".toList) = .ok st0
      ∧ loop sampleEnv.fork (cstr "5 + 0 + 3".toList) 1 0 st0 = .ok st ∧ st.offset = 4
      ∧ sscanf_c_d ((cstr "5 + 0 + 3".toList).drop st.offset) = (some '0', .unassigned)) :=
  ⟨⟨_, rfl, rfl, rfl, rfl⟩, ⟨_, _, rfl, rfl, rfl, rfl⟩⟩

/-- C5 (as amended). For every expression that consists of a single unsigned decimal
integer fitting in an `int` (optionally followed by white space), `evaluateExpression`
returns that integer and creates no worker: the trace is empty. -/
theorem single_number_no_worker (env : Env) (n : Nat) (tail : List Char)
    (hn : (n : Int) ≤ INT_MAX) (htail : ∀ c ∈ tail, isspace c = true) :
    ∃ st, evaluateExpression env (decimal n ++ tail) = .ok st ∧ st.num1 = n ∧ st.trace = [] := by
  have hc : cstr (decimal n ++ tail) = decimal n ++ tail := by
    apply cstr_eq_self
    intro c hc
    rcases List.mem_append.mp hc with hc | hc
    · exact decimal_ne_nul n c hc
    · exact isspace_ne_nul (htail c hc)
  have hcount : countOperators (decimal n ++ tail) = 0 := by
    rw [countOperators_append, countOperators_decimal,
      countOperators_eq_zero tail (fun c hc => isspace_not_operator (htail c hc))]
  refine ⟨{ num1 := n, num2 := env.num2, operator := env.operator, result := env.result,
            offset := numDigs n, trace := [] }, ?_, rfl, rfl⟩
  unfold evaluateExpression start sscanf_d
  simp only [hc, scanInt_decimal n tail hn (stops_of_blank tail htail), hcount, Conv.store, loop]

/-- Witness for C5: `"42"` as `fgets` delivers it gives 42 and no worker. -/
theorem single_number_no_worker_witness :
    ((42 : Nat) : Int) ≤ INT_MAX
      ∧ ∃ st, evaluateExpression sampleEnv "42\n".toList = .ok st ∧ st.num1 = (42 : Nat)
          ∧ st.trace = [] :=
  ⟨by decide, single_number_no_worker sampleEnv 42 ['\n'] (by decide) (by decide)⟩

/-- C5 as stated fails on `"-42"`, a single integer without operator: the sign is counted
as an operator, one worker is created (with the digit `2` as operator), and the call
returns 1 instead of -42. -/
theorem single_number_no_worker_counterexample :
    ∃ st, evaluateExpression sampleEnv "-42".toList = .ok st ∧ st.num1 = 1
      ∧ st.trace = [.forked 1000 '2' (-42) 22, .workerError 1000 (.invalidOperator '2'),
          .reaped 1000 256] :=
  ⟨_, rfl, rfl, rfl⟩

theorem tokenLoop_offset (fork : Nat → Option Nat) :
    ∀ (ps : List (Char × Nat)) (i : Nat) (st st' : State), (∀ p ∈ ps, isPositiveInt p.2) →
      tokenLoop fork ps i st = .ok st' → st'.offset = st.offset + (renderTail ps).length := by
  intro ps
  induction ps with
  | nil =>
    intro i st st' _ h
    simp only [tokenLoop, Except.ok.injEq] at h
    simp [renderTail, h]
  | cons p r ih =>
    obtain ⟨o, n⟩ := p
    intro i st st' hpos h
    rw [tokenLoop] at h
    cases hsw : spawnAndWait fork i o n st with
    | error u => rw [hsw] at h; exact absurd h (by simp)
    | ok st1 =>
      rw [hsw] at h
      rw [ih (i + 1) st1 st' (fun q hq => hpos q (List.mem_cons_of_mem _ hq)) h,
        spawnAndWait_offset hsw, numDigs_ofNat (hpos (o, n) (List.mem_cons_self _ _)).1]
      simp only [renderTail, List.length_cons, List.length_append]
      omega

theorem evaluateExpression_wellFormed (env : Env) (n0 : Nat) (rest : List (Char × Nat))
    (hwf : wellFormed n0 rest) :
    evaluateExpression env (render n0 rest) = tokenLoop env.fork rest 0 (startState env n0) := by
  have h := evaluateExpression_render env n0 rest [] hwf stops_nil (by simp)
  rw [List.append_nil, countOperators_nil] at h
  rw [h]
  cases tokenLoop env.fork rest 0 (startState env n0) <;> rfl

/-- C10 (as amended). A malformed expression is not rejected; the code has no parse error.
For a well-formed expression `E` of positive `int`s:
* `E` followed by trailing text that holds no operator character, no NUL, and does not
  start with a digit is evaluated exactly like `E`;
* `E` followed by a dangling operator (the final number is missing, as in `"3 +"`) is
  evaluated like `E`, and then one more worker is created for the dangling operator,
  with the stale contents of `num2` as its right operand. -/
theorem malformed_is_evaluated (env : Env) (n0 : Nat) (rest : List (Char × Nat))
    (hwf : wellFormed n0 rest) :
    (∀ tail : List Char, stops tail → (∀ c ∈ tail, c ≠ '\x00') → (∀ c ∈ tail, ¬ isOperator c) →
        evaluateExpression env (render n0 rest ++ tail) = evaluateExpression env (render n0 rest))
    ∧ (∀ (o : Char) (tail : List Char), isOperator o → (∀ c ∈ tail, isspace c = true) →
        evaluateExpression env (render n0 rest ++ ' ' :: o :: tail)
          = (evaluateExpression env (render n0 rest)).bind
              (fun st => spawnAndWait env.fork rest.length o st.num2 st)) := by
  constructor
  · intro tail hst hnul hop
    rw [evaluateExpression_render env n0 rest tail hwf hst hnul, countOperators_eq_zero tail hop,
      evaluateExpression_wellFormed env n0 rest hwf]
    cases tokenLoop env.fork rest 0 (startState env n0) <;> rfl
  · intro o tail ho htail
    have hnul : ∀ c ∈ ' ' :: o :: tail, c ≠ '\x00' := by
      intro c hc
      simp only [List.mem_cons] at hc
      rcases hc with rfl | rfl | hc
      · decide
      · exact isOperator_ne_nul ho
      · exact isspace_ne_nul (htail c hc)
    have hcount : countOperators (' ' :: o :: tail) = 1 := by
      rw [countOperators_cons, countOperators_cons, if_neg (by decide), if_pos ho,
        countOperators_eq_zero tail (fun c hc => isspace_not_operator (htail c hc))]
    have hskip : ∀ t : List Char, (∀ c ∈ t, isspace c = true) → skipSpace t = [] := by
      intro t
      induction t with
      | nil => intro _; rfl
      | cons c cs ih =>
        intro h
        rw [skipSpace, if_pos (h c (List.mem_cons_self _ _)),
          ih (fun x hx => h x (List.mem_cons_of_mem _ hx))]
    rw [evaluateExpression_render env n0 rest _ hwf (stops_cons _ (by decide)) hnul, hcount,
      evaluateExpression_wellFormed env n0 rest hwf]
    cases hrun : tokenLoop env.fork rest 0 (startState env n0) with
    | error u => rfl
    | ok st =>
      have hoff : st.offset = (render n0 rest).length := by
        rw [tokenLoop_offset env.fork rest 0 _ st (fun p hp => (hwf.2 p hp).2) hrun, render,
          List.length_append]
        rfl
      have hscan : sscanf_c_d (' ' :: o :: tail) = (some o, .unassigned) := by
        unfold sscanf_c_d
        rw [skipSpace, if_pos (by decide), skipSpace_cons_of_not_space _ (isOperator_not_space ho)]
        simp only [hskip tail htail]
        rfl
      simp only [Except.bind, loop, iteration]
      rw [if_neg (by rw [hoff, List.length_append]; omega), hoff, List.drop_left, hscan]
      simp only [Option.getD, Conv.store]
      cases spawnAndWait env.fork rest.length o st.num2 st <;> rfl

/-- Witness for C10: `"3 +"` is `"3"` followed by a dangling `+`; one worker is created
for it, which adds the uninitialised `num2` (22 in `sampleEnv`) to 3. -/
theorem malformed_is_evaluated_witness :
    wellFormed 3 []
      ∧ evaluateExpression sampleEnv "3 +\n".toList
          = (evaluateExpression sampleEnv "3".toList).bind
              (fun st => spawnAndWait sampleEnv.fork 0 '+' st.num2 st)
      ∧ (evaluateExpression sampleEnv "3".toList).bind
            (fun st => spawnAndWait sampleEnv.fork 0 '+' st.num2 st)
          = .ok { num1 := 25, num2 := 22, operator := '+', result := 6400, offset := 6,
                  trace := [.forked 1000 '+' 3 22, .workerLine 1000 3 '+' 22 25,
                    .reaped 1000 6400] } :=
  ⟨by decide,
    (malformed_is_evaluated sampleEnv 3 [] (by decide)).2 '+' ['\n'] (by decide) (by decide),
    rfl⟩

/-- C10 as stated fails on `"3 +"` (the final number is missing): no error is raised, a
worker is created, and `main` prints a final result and exits with status 0.  It fails in
the same way on `"3 + 4 abc"` (trailing garbage), which yields 7. -/
theorem malformed_is_evaluated_counterexample :
    main sampleEnv "3 +\n".toList
        = .ok ([.prompt, .forked 1000 '+' 3 22, .workerLine 1000 3 '+' 22 25, .reaped 1000 6400,
            .finalResult 25], 0)
    ∧ main sampleEnv "3 + 4 abc\n".toList
        = .ok ([.prompt, .forked 1000 '+' 3 4, .workerLine 1000 3 '+' 4 7, .reaped 1000 1792,
            .finalResult 7], 0) :=
  ⟨rfl, rfl⟩

/-! ## `performCalculation` and the result channel -/

theorem tdiv_eq_truncatedQuotient (a b : Int) : a.tdiv b = truncatedQuotient a b := by
  unfold truncatedQuotient
  obtain ⟨m, rfl | rfl⟩ := Int.eq_nat_or_neg a <;> obtain ⟨n, rfl | rfl⟩ := Int.eq_nat_or_neg b
  all_goals
    rcases Nat.eq_zero_or_pos m with rfl | hm <;> rcases Nat.eq_zero_or_pos n with rfl | hn
  all_goals try simp
  all_goals
    have h1 : Int.sign (m : Int) = 1 := Int.sign_eq_one_of_pos (by exact_mod_cast hm)
    have h2 : Int.sign (n : Int) = 1 := Int.sign_eq_one_of_pos (by exact_mod_cast hn)
    rw [h1, h2, ← Int.ofNat_tdiv]
    simp

theorem checked_ne_exitFailure (x : Int) (e : CalcError) : checked x ≠ .exitFailure e := by
  unfold checked
  split <;> simp

/-- C6. `performCalculation(op, a, b)` returns `a + b` for `+`, `a - b` for `-`, `a * b` for
`*`, and the quotient truncated toward zero for `/` with `b != 0`, whenever that exact
result fits in a 32-bit `int`. -/
theorem performCalculation_exact (op : Char) (a b : Int) (hop : isOperator op)
    (hdiv : op = '/' → b ≠ 0) (hfit : inIntRange (exactResult op a b)) :
    performCalculation op a b = .ret (exactResult op a b) := by
  unfold performCalculation
  unfold exactResult at hfit ⊢
  rcases hop with rfl | rfl | rfl | rfl
  · simp only [if_true] at hfit ⊢
    simp [checked, hfit]
  · rw [if_neg (by decide), if_pos rfl] at hfit ⊢
    simp [checked, hfit]
  · rw [if_neg (by decide), if_neg (by decide), if_pos rfl] at hfit ⊢
    simp [checked, hfit]
  · rw [if_neg (by decide), if_neg (by decide), if_neg (by decide)] at hfit ⊢
    rw [if_pos rfl, if_pos (hdiv rfl), tdiv_eq_truncatedQuotient]
    simp [checked, hfit]

/-- Witness for C6: `-7 / 2` is `-3`, the quotient truncated toward zero. -/
theorem performCalculation_exact_witness :
    isOperator '/' ∧ inIntRange (exactResult '/' (-7) 2) ∧ exactResult '/' (-7) 2 = -3
      ∧ performCalculation '/' (-7) 2 = .ret (exactResult '/' (-7) 2) :=
  ⟨by decide, by decide, by decide,
    performCalculation_exact '/' (-7) 2 (by decide) (fun _ => by decide) (by decide)⟩

/-- C7. `performCalculation(op, a, b)` fails exactly when `op` is `/` with `b = 0`, or `op`
is none of the four operators; the failure is "division by zero" in the first case and
"invalid operator" in the second, and a failing call returns no value: the worker prints
no result line and exits with `EXIT_FAILURE`. -/
theorem performCalculation_fails_iff (op : Char) (a b : Int) :
    ((∃ e, performCalculation op a b = .exitFailure e) ↔ ((op = '/' ∧ b = 0) ∨ ¬ isOperator op))
      ∧ ((op = '/' ∧ b = 0) → performCalculation op a b = .exitFailure .divisionByZero)
      ∧ (¬ isOperator op → performCalculation op a b = .exitFailure (.invalidOperator op))
      ∧ (∀ e, performCalculation op a b = .exitFailure e →
          (∀ r, performCalculation op a b ≠ .ret r)
          ∧ ∀ pid, worker pid op a b = .ok (EXIT_FAILURE, [.workerError pid e])) := by
  have hdz : (op = '/' ∧ b = 0) → performCalculation op a b = .exitFailure .divisionByZero := by
    rintro ⟨rfl, rfl⟩
    unfold performCalculation
    rw [if_neg (by decide), if_neg (by decide), if_neg (by decide), if_pos rfl]
    simp
  have hinv : ¬ isOperator op →
      performCalculation op a b = .exitFailure (.invalidOperator op) := by
    intro h
    unfold isOperator at h
    unfold performCalculation
    rw [if_neg (fun h' => h (Or.inl h')), if_neg (fun h' => h (Or.inr (Or.inl h'))),
      if_neg (fun h' => h (Or.inr (Or.inr (Or.inl h')))),
      if_neg (fun h' => h (Or.inr (Or.inr (Or.inr h'))))]
  refine ⟨⟨?_, ?_⟩, hdz, hinv, ?_⟩
  · rintro ⟨e, he⟩
    by_contra hcon
    rw [not_or, not_not] at hcon
    obtain ⟨hnd, hop⟩ := hcon
    unfold performCalculation at he
    rcases hop with rfl | rfl | rfl | rfl
    · rw [if_pos rfl] at he
      exact checked_ne_exitFailure _ _ he
    · rw [if_neg (by decide), if_pos rfl] at he
      exact checked_ne_exitFailure _ _ he
    · rw [if_neg (by decide), if_neg (by decide), if_pos rfl] at he
      exact checked_ne_exitFailure _ _ he
    · rw [if_neg (by decide), if_neg (by decide), if_neg (by decide), if_pos rfl,
        if_pos (fun hb => hnd ⟨rfl, hb⟩)] at he
      exact checked_ne_exitFailure _ _ he
  · rintro (h | h)
    · exact ⟨_, hdz h⟩
    · exact ⟨_, hinv h⟩
  · intro e he
    refine ⟨fun r hr => ?_, fun pid => ?_⟩
    · rw [he] at hr; exact absurd hr (by simp)
    · simp [worker, he]

/-- Witness for C7: `5 / 0` fails with "division by zero", `5 ? 3` with "invalid operator". -/
theorem performCalculation_fails_iff_witness :
    performCalculation '/' 5 0 = .exitFailure .divisionByZero
      ∧ performCalculation '?' 5 3 = .exitFailure (.invalidOperator '?') :=
  ⟨(performCalculation_fails_iff '/' 5 0).2.1 ⟨rfl, rfl⟩,
    (performCalculation_fails_iff '?' 5 3).2.2.1 (by decide)⟩

/-- C8. The result channel keeps 8 unsigned bits: when a worker is created and its
`performCalculation` returns `r`, the accumulator the driver adopts is `r mod 256`, the
residue in `0..255`. -/
theorem result_channel_truncates (fork : Nat → Option Nat) (i pid : Nat) (o : Char)
    (n r : Int) (st : State) (hf : fork i = some pid)
    (hc : performCalculation o st.num1 n = .ret r) :
    ∃ st', spawnAndWait fork i o n st = .ok st' ∧ st'.num1 = r % 256
      ∧ 0 ≤ st'.num1 ∧ st'.num1 < 256 :=
  ⟨_, spawnAndWait_ret hf hc, rfl, Int.emod_nonneg _ (by decide), Int.emod_lt_of_pos _ (by decide)⟩

/-- Witness for C8: the worker of `"3 - 5"` returns -2 and the driver adopts 254; the final
results of `"3 - 5"` and `"200 + 100"` are 254 and 44. -/
theorem result_channel_truncates_witness :
    (performCalculation '-' 3 5 = .ret (-2)
      ∧ ∃ st', spawnAndWait sampleEnv.fork 0 '-' 5 (startState sampleEnv 3) = .ok st'
          ∧ st'.num1 = (-2) % 256 ∧ 0 ≤ st'.num1 ∧ st'.num1 < 256)
    ∧ (∃ st, evaluateExpression sampleEnv "3 - 5".toList = .ok st ∧ st.num1 = 254)
    ∧ (∃ st, evaluateExpression sampleEnv "200 + 100".toList = .ok st ∧ st.num1 = 44) :=
  ⟨⟨rfl, result_channel_truncates sampleEnv.fork 0 1000 '-' 5 (-2) (startState sampleEnv 3)
      rfl rfl⟩,
    ⟨_, rfl, rfl⟩, ⟨_, rfl, rfl⟩⟩

/-! ## Failures of a worker -/

/-- C2, the code at its failing inputs.  On `"5 / 0"` the worker reports the division by
zero and exits with `EXIT_FAILURE`; the parent adopts that status as the result, prints
"Final result: 1" and exits with status 0.  On `"5 / 0 + 3"` a second worker is created
after the first one has failed. -/
theorem division_by_zero_not_propagated :
    main sampleEnv "5 / 0\n".toList
        = .ok ([.prompt, .forked 1000 '/' 5 0, .workerError 1000 .divisionByZero, .reaped 1000 256,
            .finalResult 1], 0)
    ∧ main sampleEnv "5 / 0 + 3\n".toList
        = .ok ([.prompt, .forked 1000 '/' 5 0, .workerError 1000 .divisionByZero, .reaped 1000 256,
            .forked 1001 '0' 1 0, .workerError 1001 (.invalidOperator '0'), .reaped 1001 256,
            .finalResult 1], 0) :=
  ⟨rfl, rfl⟩

/-- C3, the code at its failing inputs.  On `"5 ? 3"` the operator scan counts no operator,
so no worker is created, nothing is reported, and `main` prints "Final result: 5" and
exits with status 0.  On `"5 ? 3 + 2"` the worker for `?` reports the invalid operator,
but the parent adopts its exit status and prints "Final result: 1". -/
theorem invalid_operator_not_propagated :
    main sampleEnv "5 ? 3\n".toList = .ok ([.prompt, .finalResult 5], 0)
    ∧ main sampleEnv "5 ? 3 + 2\n".toList
        = .ok ([.prompt, .forked 1000 '?' 5 3, .workerError 1000 (.invalidOperator '?'),
            .reaped 1000 256, .finalResult 1], 0) :=
  ⟨rfl, rfl⟩

/-! ## Sequential execution -/

theorem sequentialFrom_append (t u : List Event) :
    ∀ alive, sequentialFrom alive t = true → sequentialFrom none u = true →
      sequentialFrom alive (t ++ u) = true := by
  induction t with
  | nil =>
    intro alive h hu
    cases alive with
    | none => exact hu
    | some p => simp [sequentialFrom] at h
  | cons e t ih =>
    intro alive h hu
    cases alive <;> cases e <;>
      simp only [List.cons_append, sequentialFrom, Bool.and_eq_true, Bool.false_eq_true,
        Option.isNone_none, Option.isNone_some, true_and, false_and] at h ⊢
    all_goals first
      | exact ih _ h hu
      | exact ⟨h.1, ih _ h.2 hu⟩

/-- In a sequential trace, at every point the workers created exceed the results
collected by at most one (the worker alive), and never fall below them. -/
theorem sequentialFrom_alive (t : List Event) :
    ∀ alive, sequentialFrom alive t = true → ∀ p, p <+: t →
      reaps p ≤ forks p + (if alive.isSome then 1 else 0)
        ∧ forks p + (if alive.isSome then 1 else 0) ≤ reaps p + 1 := by
  induction t with
  | nil =>
    intro alive _ p hp
    rw [List.prefix_nil.mp hp]
    cases alive <;> simp [reaps, forks]
  | cons e t ih =>
    intro alive h p hp
    cases p with
    | nil => cases alive <;> simp [reaps, forks]
    | cons e' q =>
      obtain ⟨rfl, hq⟩ := List.cons_prefix_cons.mp hp
      cases alive <;> cases e' <;>
        simp only [sequentialFrom, Bool.and_eq_true, Bool.false_eq_true,
          Option.isNone_none, Option.isNone_some, true_and, false_and] at h
      all_goals first
        | (have hq' := ih _ h q hq
           simp [reaps, forks, List.countP_cons, Event.isReap, Event.isFork] at hq' ⊢
           omega)
        | (have hq' := ih _ h.2 q hq
           simp [reaps, forks, List.countP_cons, Event.isReap, Event.isFork] at hq' ⊢
           omega)

theorem spawnAndWait_sequential {fork : Nat → Option Nat} {i : Nat} {o : Char} {n : Int}
    {st st' : State} (h : spawnAndWait fork i o n st = .ok st')
    (hs : sequential st.trace = true) : sequential st'.trace = true := by
  cases hf : fork i with
  | none =>
    simp only [spawnAndWait, hf, Except.ok.injEq] at h
    rw [← h]
    exact sequentialFrom_append _ _ none hs (by simp [sequentialFrom])
  | some pid =>
    cases hc : performCalculation o st.num1 n with
    | ret r =>
      rw [spawnAndWait_ret hf hc, Except.ok.injEq] at h
      rw [← h]
      exact sequentialFrom_append _ _ none hs (by simp [sequentialFrom])
    | exitFailure e =>
      rw [spawnAndWait_exitFailure hf hc, Except.ok.injEq] at h
      rw [← h]
      exact sequentialFrom_append _ _ none hs (by simp [sequentialFrom])
    | undefined =>
      simp [spawnAndWait, worker, hf, hc] at h

theorem iteration_sequential {fork : Nat → Option Nat} {s : List Char} {i : Nat}
    {st st' : State} (h : iteration fork s i st = .ok st')
    (hs : sequential st.trace = true) : sequential st'.trace = true := by
  unfold iteration at h
  split at h
  · exact absurd h (by simp)
  · split at h
    · exact absurd h (by simp)
    · exact spawnAndWait_sequential h hs

theorem loop_sequential (fork : Nat → Option Nat) (s : List Char) :
    ∀ (k i : Nat) (st st' : State), loop fork s k i st = .ok st' →
      sequential st.trace = true → sequential st'.trace = true := by
  intro k
  induction k with
  | zero =>
    intro i st st' h hs
    simp only [loop, Except.ok.injEq] at h
    rw [← h]; exact hs
  | succ k ih =>
    intro i st st' h hs
    rw [loop] at h
    cases hit : iteration fork s i st with
    | error u => rw [hit] at h; exact absurd h (by simp)
    | ok st1 =>
      rw [hit] at h
      exact ih (i + 1) st1 st' h (iteration_sequential hit hs)

theorem start_trace {env : Env} {s : List Char} {st0 : State} (h : start env s = .ok st0) :
    st0.trace = [] := by
  unfold start at h
  split at h
  · exact absurd h (by simp)
  · simp only [Except.ok.injEq] at h
    rw [← h]

/-- C11. Evaluation is strictly sequential.  In every state the driver reaches, after any
number `k` of loop iterations on any expression and with any outcomes of `fork`, the
trace is sequential: a worker is created only while no other worker is alive, that is
after the previous one has terminated and its status has been collected, and none is
alive between iterations.  Hence at every point of the run the workers created exceed
the results collected by at most one. -/
theorem strictly_sequential (env : Env) (expression : List Char) (k : Nat) (st0 st : State)
    (h0 : start env (cstr expression) = .ok st0)
    (hk : loop env.fork (cstr expression) k 0 st0 = .ok st) :
    sequential st.trace = true
      ∧ ∀ p, p <+: st.trace → reaps p ≤ forks p ∧ forks p ≤ reaps p + 1 := by
  have hs : sequential st.trace = true :=
    loop_sequential env.fork _ k 0 st0 st hk (by rw [start_trace h0]; rfl)
  refine ⟨hs, fun p hp => ?_⟩
  simpa using sequentialFrom_alive st.trace none hs p hp

/-- Witness for C11: the run on `"10 - 2 * 3"` after both iterations; its trace is
fork, line, reap, fork, line, reap. -/
theorem strictly_sequential_witness :
    start sampleEnv (cstr "10 - 2 * 3\n".toList) = .ok (startState sampleEnv 10)
      ∧ (∃ st, loop sampleEnv.fork (cstr "10 - 2 * 3\n".toList) 2 0 (startState sampleEnv 10)
            = .ok st
          ∧ st.trace = [.forked 1000 '-' 10 2, .workerLine 1000 10 '-' 2 8, .reaped 1000 2048,
              .forked 1001 '*' 8 3, .workerLine 1001 8 '*' 3 24, .reaped 1001 6144]
          ∧ sequential st.trace = true
          ∧ ∀ p, p <+: st.trace → reaps p ≤ forks p ∧ forks p ≤ reaps p + 1) :=
  ⟨rfl, _, rfl, rfl, strictly_sequential sampleEnv "10 - 2 * 3\n".toList 2
      (startState sampleEnv 10) _ rfl rfl⟩

/-! ## Independence of the process ids -/

theorem accumulate_append (a b : List (Char × Nat)) :
    ∀ acc, accumulate acc (a ++ b) = (accumulate acc a).bind (fun w => accumulate w b) := by
  induction a with
  | nil => intro acc; rfl
  | cons p r ih =>
    obtain ⟨o, n⟩ := p
    intro acc
    simp only [List.cons_append, accumulate]
    cases adopted (performCalculation o acc n) with
    | none => rfl
    | some v => exact ih v

theorem tokenLoop_append (fork : Nat → Option Nat) (a b : List (Char × Nat)) :
    ∀ (i : Nat) (st : State),
      tokenLoop fork (a ++ b) i st
        = (tokenLoop fork a i st).bind (fun st' => tokenLoop fork b (i + a.length) st') := by
  induction a with
  | nil => intro i st; rfl
  | cons p r ih =>
    obtain ⟨o, n⟩ := p
    intro i st
    simp only [List.cons_append, tokenLoop, List.length_cons]
    cases spawnAndWait fork i o n st with
    | error u => rfl
    | ok st1 =>
      have h := ih (i + 1) st1
      rw [show i + 1 + r.length = i + (r.length + 1) by omega] at h
      exact h

theorem spawnAndWait_created {fork : Nat → Option Nat} {i pid : Nat} {o : Char} {n v : Int}
    {st : State} (hf : fork i = some pid)
    (hv : adopted (performCalculation o st.num1 n) = some v) :
    ∃ st', spawnAndWait fork i o n st = .ok st' ∧ st'.num1 = v
      ∧ st'.num1 = WEXITSTATUS st'.result
      ∧ spawned st'.trace = spawned st.trace ++ [(o, n)]
      ∧ forkFailures st'.trace = forkFailures st.trace := by
  cases hc : performCalculation o st.num1 n with
  | ret r =>
    rw [hc] at hv
    simp only [adopted, Option.some.injEq, WEXITSTATUS_W_EXITCODE] at hv
    refine ⟨_, spawnAndWait_ret hf hc, hv, (WEXITSTATUS_W_EXITCODE r).symm, ?_, ?_⟩
    · simp [spawned, Event.spawn, List.filterMap_append]
    · simp [forkFailures, Event.isForkFailure, List.countP_append, List.countP_cons]
  | exitFailure e =>
    rw [hc] at hv
    simp only [adopted, Option.some.injEq, WEXITSTATUS_W_EXITCODE] at hv
    refine ⟨_, spawnAndWait_exitFailure hf hc, ?_, rfl, ?_, ?_⟩
    · rw [← hv]; rfl
    · simp [spawned, Event.spawn, List.filterMap_append]
    · simp [forkFailures, Event.isForkFailure, List.countP_append, List.countP_cons]
  | undefined =>
    rw [hc] at hv
    exact absurd hv (by simp [adopted])

theorem tokenLoop_segment (fork : Nat → Option Nat) :
    ∀ (ps : List (Char × Nat)) (i : Nat) (st : State) (v : Int),
      (∀ j, i ≤ j → j < i + ps.length → (fork j).isSome = true) →
      accumulate st.num1 ps = some v →
      ∃ st', tokenLoop fork ps i st = .ok st' ∧ st'.num1 = v
        ∧ (ps ≠ [] → st'.num1 = WEXITSTATUS st'.result)
        ∧ spawned st'.trace = spawned st.trace ++ ps.map (fun p => (p.1, (p.2 : Int)))
        ∧ forkFailures st'.trace = forkFailures st.trace := by
  intro ps
  induction ps with
  | nil =>
    intro i st v _ hacc
    simp only [accumulate, Option.some.injEq] at hacc
    exact ⟨st, rfl, hacc, fun h => absurd rfl h, by simp, rfl⟩
  | cons p r ih =>
    obtain ⟨o, n⟩ := p
    intro i st v hfork hacc
    rw [accumulate] at hacc
    cases hw : adopted (performCalculation o st.num1 n) with
    | none => rw [hw] at hacc; exact absurd hacc (by simp)
    | some w =>
      rw [hw] at hacc
      obtain ⟨pid, hpid⟩ := Option.isSome_iff_exists.mp
        (hfork i (Nat.le_refl i) (by rw [List.length_cons]; omega))
      obtain ⟨st1, hst1, hnum, hres, hsp, hff⟩ := spawnAndWait_created hpid hw
      obtain ⟨st', hst', hnum', hres', hsp', hff'⟩ := ih (i + 1) st1 v
        (fun j h1 h2 => hfork j (by omega) (by rw [List.length_cons]; omega))
        (by rw [hnum]; exact hacc)
      refine ⟨st', ?_, hnum', fun _ => ?_, ?_, ?_⟩
      · rw [tokenLoop, hst1]; exact hst'
      · cases r with
        | nil =>
          simp only [tokenLoop, Except.ok.injEq] at hst'
          rw [← hst']; exact hres
        | cons q r' => exact hres' (by simp)
      · rw [hsp', hsp]; simp
      · rw [hff', hff]

/-- C12 (as amended). A failed `fork` is swallowed.  On an expression
`n0 op1 n1 ... opN nN` of positive `int`s in which the `fork` for one operation, not
the first, fails and every other `fork` succeeds (no worker overflowing), nothing is
reported and the evaluation is not aborted: the failed operation is skipped, the
workers of all the other operations are created, and the call returns the result of the
expression without the skipped operation. -/
theorem fork_failure_skips_operation (env : Env) (n0 : Nat) (a b : List (Char × Nat))
    (o : Char) (n : Nat) (tail : List Char) (v : Int)
    (hwf : wellFormed n0 (a ++ (o, n) :: b)) (ha : a ≠ [])
    (hfail : env.fork a.length = none)
    (hothers : ∀ i, i ≠ a.length → (env.fork i).isSome = true)
    (htail : ∀ c ∈ tail, isspace c = true) (hacc : accumulate n0 (a ++ b) = some v) :
    ∃ st, evaluateExpression env (render n0 (a ++ (o, n) :: b) ++ tail) = .ok st
      ∧ st.num1 = v
      ∧ spawned st.trace = (a ++ b).map (fun p => (p.1, (p.2 : Int)))
      ∧ forkFailures st.trace = 1 := by
  rw [accumulate_append] at hacc
  cases hw : accumulate n0 a with
  | none => rw [hw] at hacc; exact absurd hacc (by simp)
  | some w =>
    rw [hw] at hacc
    simp only [Option.bind] at hacc
    obtain ⟨st1, hst1, hnum1, hres1, hsp1, hff1⟩ := tokenLoop_segment env.fork a 0
      (startState env n0) w (fun j _ h2 => hothers j (by omega)) hw
    have hstep : spawnAndWait env.fork a.length o n st1
        = .ok { num1 := WEXITSTATUS st1.result, num2 := n, operator := o, result := st1.result,
                offset := st1.offset + (3 + numDigs n),
                trace := st1.trace ++ [.forkFailed] } := by
      simp [spawnAndWait, hfail]
    obtain ⟨st3, hst3, hnum3, _, hsp3, hff3⟩ := tokenLoop_segment env.fork b (a.length + 1)
      { num1 := WEXITSTATUS st1.result, num2 := n, operator := o, result := st1.result,
        offset := st1.offset + (3 + numDigs n), trace := st1.trace ++ [.forkFailed] } v
      (fun j h1 _ => hothers j (by omega))
      (by rw [← hres1 ha, hnum1]; exact hacc)
    refine ⟨st3, ?_, hnum3, ?_, ?_⟩
    · rw [evaluateExpression_render env n0 _ tail hwf (stops_of_blank tail htail)
          (fun c hc => isspace_ne_nul (htail c hc)),
        countOperators_eq_zero tail (fun c hc => isspace_not_operator (htail c hc)),
        tokenLoop_append, hst1]
      simp only [Except.bind, Nat.zero_add, tokenLoop, hstep, hst3, loop]
    · rw [hsp3]
      simp only [spawned, List.filterMap_append] at hsp1 ⊢
      rw [hsp1]
      simp [startState, Event.spawn]
    · rw [hff3]
      simp only [forkFailures, List.countP_append] at hff1 ⊢
      rw [hff1]
      simp [startState, Event.isForkFailure]

/-- Witness for C12 on `"8 - 3 * 2 + 1"` with the second `fork` failing: the
multiplication is skipped and the result is `(8 - 3) + 1 = 6`. -/
theorem fork_failure_skips_operation_witness :
    wellFormed 8 ([('-', 3)] ++ ('*', 2) :: [('+', 1)])
      ∧ flakyEnv.fork 1 = none
      ∧ accumulate 8 ([('-', 3)] ++ [('+', 1)]) = some 6
      ∧ ∃ st, evaluateExpression flakyEnv "8 - 3 * 2 + 1\n".toList = .ok st
          ∧ st.num1 = 6
          ∧ spawned st.trace = [('-', 3), ('+', 1)]
          ∧ forkFailures st.trace = 1 :=
  ⟨by decide, rfl, rfl,
    fork_failure_skips_operation flakyEnv 8 [('-', 3)] [('+', 1)] '*' 2 ['\n'] 6 (by decide)
      (by simp) rfl
      (fun i hi => by
        have h1 : i ≠ 1 := hi
        simp [flakyEnv, h1])
      (by decide) rfl⟩

/-- C12 as stated fails on `"8 - 3 * 2 + 1"` when the second `fork` fails: no failure is
reported, a further worker is created after the failed `fork`, and `main` prints
"Final result: 6" and exits with status 0. -/
theorem fork_failure_skips_operation_counterexample :
    main flakyEnv "8 - 3 * 2 + 1\n".toList
      = .ok ([.prompt, .forked 1000 '-' 8 3, .workerLine 1000 8 '-' 3 5, .reaped 1000 1280,
          .forkFailed,
          .forked 1002 '+' 5 1, .workerLine 1002 5 '+' 1 6, .reaped 1002 1536,
          .finalResult 6], 0) :=
  rfl

/-! ## `numDigs` on every `int` -/

theorem numDigsLoop_neg (fuel : Nat) :
    ∀ (n : Int) (c : Nat), numDigsLoop fuel (-n) c = numDigsLoop fuel n c := by
  induction fuel with
  | zero => intro n c; rfl
  | succ f ih =>
    intro n c
    have h : ((-n != 0) = (n != 0)) := by
      by_cases hz : n = 0
      · subst hz; rfl
      · have hz' : -n ≠ 0 := by omega
        rw [bne_iff_ne.mpr hz, bne_iff_ne.mpr hz']
    rw [numDigsLoop, numDigsLoop, h, Int.neg_tdiv, ih]

/-- The loop of `numDigs` leaves by its test `n != 0`, not by the fuel: any fuel from `|n|`
on gives the same count, the number of digits of `|n|` for `n` other than zero. -/
theorem numDigsLoop_fuel (n : Int) (fuel : Nat) (h : n.natAbs ≤ fuel) :
    numDigsLoop fuel n 0 = if n = 0 then 0 else (decimal n.natAbs).length := by
  obtain ⟨m, rfl | rfl⟩ := Int.eq_nat_or_neg n
  · have hnat := numDigsLoop_ofNat fuel m 0 (by simpa using h)
    rw [Nat.zero_add] at hnat
    rw [hnat]; simp
  · have hnat := numDigsLoop_ofNat fuel m 0 (by simpa using h)
    rw [Nat.zero_add] at hnat
    rw [numDigsLoop_neg, hnat]; simp

theorem numDigs_of_ne_zero (n : Int) (h : n ≠ 0) : numDigs n = (decimal n.natAbs).length := by
  rw [numDigs, numDigsLoop_fuel n _ (Nat.le_refl _), if_neg h]

/-- C14, the code at its failing input.  `numDigs(0)` is 0, although the decimal
representation of 0 has one digit; on the other examples of the claim the count is right:
`numDigs(7) = 1`, `numDigs(10) = 2`, `numDigs(12345) = 5`. -/
theorem numDigs_zero_is_zero :
    numDigs 0 = 0 ∧ (decimal 0).length = 1
      ∧ numDigs 7 = 1 ∧ numDigs 10 = 2 ∧ numDigs 12345 = 5 :=
  ⟨rfl, rfl, rfl, rfl, rfl⟩

end MathC

/-! # Theorems about `trig.c` -/

namespace TrigC

theorem myPowLoop_eq (n : ℚ) : ∀ (k : Nat) (power : ℚ), myPowLoop n k power = power * n ^ k := by
  intro k
  induction k with
  | zero => intro power; simp [myPowLoop]
  | succ k ih => intro power; rw [myPowLoop, ih, pow_succ]; ring

theorem myPow_natCast (n : ℚ) (k : Nat) : myPow n (k : Int) = n ^ k := by
  rw [myPow, Int.toNat_natCast, myPowLoop_eq, one_mul]

theorem myFactLoop_eq : ∀ (i : Nat) (fact : ℚ), myFactLoop i fact = fact * (i.factorial : ℚ) := by
  intro i
  induction i with
  | zero => intro fact; simp [myFactLoop]
  | succ i ih =>
    intro fact
    rw [myFactLoop, ih, Nat.factorial_succ]
    push_cast
    ring

theorem myFact_natCast (k : Nat) : myFact (k : Int) = (k.factorial : ℚ) := by
  rw [myFact, Int.toNat_natCast, myFactLoop_eq, one_mul]

theorem sinPartial_succ (k : Nat) (a : ℚ) :
    sinPartial (k + 1) a
      = sinPartial k a
        + if k % 2 = 1 then (-1 : ℚ) ^ ((k - 1) / 2) * a ^ k / (k.factorial : ℚ) else 0 := by
  unfold sinPartial
  rw [Finset.range_succ, Finset.filter_insert]
  split
  · rw [Finset.sum_insert (by simp), add_comm]
  · rw [add_zero]

theorem cosPartial_succ (k : Nat) (a : ℚ) :
    cosPartial (k + 1) a
      = cosPartial k a
        + if k % 2 = 0 then (-1 : ℚ) ^ (k / 2) * a ^ k / (k.factorial : ℚ) else 0 := by
  unfold cosPartial
  rw [Finset.range_succ, Finset.filter_insert]
  split
  · rw [Finset.sum_insert (by simp), add_comm]
  · rw [add_zero]

theorem sinTaylorLoop_inv (a : ℚ) (t : Int) :
    ∀ (m k : Nat), t.toNat ≤ k + m →
      sinTaylorLoop a ((k % 4 : Nat) : Int) (t - 4 * ((k / 4 : Nat) : Int)) (k : Int)
          (sinPartial k a)
        = sinPartial (max k t.toNat) a := by
  intro m
  induction m with
  | zero =>
    intro k hk
    rw [sinTaylorLoop, if_neg (by omega), max_eq_left (by omega)]
  | succ m ih =>
    intro k hk
    by_cases hlt : (k : Int) < t
    · have ih' := ih (k + 1) (by omega)
      rw [sinPartial_succ, max_eq_right (by omega)] at ih'
      rw [max_eq_right (by omega), sinTaylorLoop, if_pos (by omega)]
      have hcases : k % 4 = 0 ∨ k % 4 = 1 ∨ k % 4 = 2 ∨ k % 4 = 3 := by omega
      have hc : ((k + 1 : Nat) : Int) = (k : Int) + 1 := by push_cast; rfl
      rcases hcases with h | h | h | h
      · have e1 : (((k + 1) % 4 : Nat) : Int) = ((k % 4 : Nat) : Int) + 1 := by omega
        have e2 : (((k + 1) / 4 : Nat) : Int) = ((k / 4 : Nat) : Int) := by omega
        rw [e1, e2, hc, if_neg (by omega), add_zero] at ih'
        rw [if_pos (by omega)]
        exact ih'
      · have e1 : (((k + 1) % 4 : Nat) : Int) = ((k % 4 : Nat) : Int) + 1 := by omega
        have e2 : (((k + 1) / 4 : Nat) : Int) = ((k / 4 : Nat) : Int) := by omega
        have hev : Even ((k - 1) / 2) := ⟨(k - 1) / 4, by omega⟩
        rw [e1, e2, hc, if_pos (by omega), hev.neg_one_pow, one_mul] at ih'
        rw [if_neg (by omega), if_pos (by omega), myPow_natCast, myFact_natCast]
        exact ih'
      · have e1 : (((k + 1) % 4 : Nat) : Int) = ((k % 4 : Nat) : Int) + 1 := by omega
        have e2 : (((k + 1) / 4 : Nat) : Int) = ((k / 4 : Nat) : Int) := by omega
        rw [e1, e2, hc, if_neg (by omega), add_zero] at ih'
        rw [if_neg (by omega), if_neg (by omega), if_pos (by omega)]
        exact ih'
      · have e1 : (((k + 1) % 4 : Nat) : Int) = ((k % 4 : Nat) : Int) - 4 + 1 := by omega
        have e2 : t - 4 * (((k + 1) / 4 : Nat) : Int) = t - 4 * ((k / 4 : Nat) : Int) - 4 := by
          omega
        have hod : Odd ((k - 1) / 2) := ⟨(k - 1) / 4, by omega⟩
        rw [e1, e2, hc, if_pos (by omega), hod.neg_one_pow, neg_one_mul, neg_div,
          ← sub_eq_add_neg] at ih'
        rw [if_neg (by omega), if_neg (by omega), if_neg (by omega), if_pos (by omega),
          myPow_natCast, myFact_natCast]
        exact ih'
    · rw [sinTaylorLoop, if_neg (by omega), max_eq_left (by omega)]

theorem sinTaylor_eq_sinPartial (t : Int) (a : ℚ) : sinTaylor t a = sinPartial t.toNat a := by
  have h := sinTaylorLoop_inv a t t.toNat 0 (by omega)
  simpa [sinTaylor, sinPartial] using h

theorem cosTaylorLoop_inv (a : ℚ) (t : Int) :
    ∀ (m k : Nat), t.toNat ≤ k + m →
      cosTaylorLoop a ((k % 4 : Nat) : Int) (t - 4 * ((k / 4 : Nat) : Int)) (k : Int)
          (cosPartial k a)
        = cosPartial (max k t.toNat) a := by
  intro m
  induction m with
  | zero =>
    intro k hk
    rw [cosTaylorLoop, if_neg (by omega), max_eq_left (by omega)]
  | succ m ih =>
    intro k hk
    by_cases hlt : (k : Int) < t
    · have ih' := ih (k + 1) (by omega)
      rw [cosPartial_succ, max_eq_right (by omega)] at ih'
      rw [max_eq_right (by omega), cosTaylorLoop, if_pos (by omega)]
      have hcases : k % 4 = 0 ∨ k % 4 = 1 ∨ k % 4 = 2 ∨ k % 4 = 3 := by omega
      have hc : ((k + 1 : Nat) : Int) = (k : Int) + 1 := by push_cast; rfl
      rcases hcases with h | h | h | h
      · have e1 : (((k + 1) % 4 : Nat) : Int) = ((k % 4 : Nat) : Int) + 1 := by omega
        have e2 : (((k + 1) / 4 : Nat) : Int) = ((k / 4 : Nat) : Int) := by omega
        have hev : Even (k / 2) := ⟨k / 4, by omega⟩
        rw [e1, e2, hc, if_pos (by omega), hev.neg_one_pow, one_mul] at ih'
        rw [if_pos (by omega), myPow_natCast, myFact_natCast]
        exact ih'
      · have e1 : (((k + 1) % 4 : Nat) : Int) = ((k % 4 : Nat) : Int) + 1 := by omega
        have e2 : (((k + 1) / 4 : Nat) : Int) = ((k / 4 : Nat) : Int) := by omega
        rw [e1, e2, hc, if_neg (by omega), add_zero] at ih'
        rw [if_neg (by omega), if_pos (by omega)]
        exact ih'
      · have e1 : (((k + 1) % 4 : Nat) : Int) = ((k % 4 : Nat) : Int) + 1 := by omega
        have e2 : (((k + 1) / 4 : Nat) : Int) = ((k / 4 : Nat) : Int) := by omega
        have hod : Odd (k / 2) := ⟨k / 4, by omega⟩
        rw [e1, e2, hc, if_pos (by omega), hod.neg_one_pow, neg_one_mul, neg_div,
          ← sub_eq_add_neg] at ih'
        rw [if_neg (by omega), if_neg (by omega), if_pos (by omega), myPow_natCast,
          myFact_natCast]
        exact ih'
      · have e1 : (((k + 1) % 4 : Nat) : Int) = ((k % 4 : Nat) : Int) - 4 + 1 := by omega
        have e2 : t - 4 * (((k + 1) / 4 : Nat) : Int) = t - 4 * ((k / 4 : Nat) : Int) - 4 := by
          omega
        rw [e1, e2, hc, if_neg (by omega), add_zero] at ih'
        rw [if_neg (by omega), if_neg (by omega), if_neg (by omega), if_pos (by omega)]
        exact ih'
    · rw [cosTaylorLoop, if_neg (by omega), max_eq_left (by omega)]

theorem cosTaylor_eq_cosPartial (t : Int) (a : ℚ) : cosTaylor t a = cosPartial t.toNat a := by
  have h := cosTaylorLoop_inv a t t.toNat 0 (by omega)
  simpa [cosTaylor, cosPartial] using h

/-- C15. The function `sinTaylor` is total: its loop, although it resets `i` and `fin`
every fourth iteration, ends for every `int t` (the distance `fin - i` shrinks in every
iteration), and in exact arithmetic `sinTaylor(t, a)` is the partial Taylor sum of sine
made of the first `t` power-series terms, the sum over the odd `c` with `0 <= c < t` of
`(-1)^((c-1)/2) * a^c / c!`. -/
theorem sinTaylor_is_partial_sum (t : Int) (a : ℚ) :
    sinTaylor t a = sinSeries t a
      ∧ sinSeries t a = ∑ c ∈ (Finset.range t.toNat).filter (fun c => c % 2 = 1),
          (-1 : ℚ) ^ ((c - 1) / 2) * a ^ c / (c.factorial : ℚ) :=
  ⟨sinTaylor_eq_sinPartial t a, rfl⟩

/-- Witness for C15: four terms at `a = 2` give `2 - 2^3/3! = 2/3`, and no term gives 0
for a negative count. -/
theorem sinTaylor_is_partial_sum_witness :
    sinTaylor 4 2 = 2 / 3 ∧ sinTaylor (-5) 2 = 0 := by
  refine ⟨?_, ?_⟩
  · rw [(sinTaylor_is_partial_sum 4 2).1]
    norm_num [sinSeries, sinPartial, show Int.toNat 4 = 4 from rfl, Finset.sum_filter,
      Finset.sum_range_succ, Nat.factorial]
  · rw [(sinTaylor_is_partial_sum (-5) 2).1]
    simp [sinSeries, sinPartial]

/-- C16. The function `cosTaylor` is total: its loop ends for every `int t`, and in exact
arithmetic `cosTaylor(t, a)` is the partial Taylor sum of cosine made of the first `t`
power-series terms, the sum over the even `c` with `0 <= c < t` of
`(-1)^(c/2) * a^c / c!`. -/
theorem cosTaylor_is_partial_sum (t : Int) (a : ℚ) :
    cosTaylor t a = cosSeries t a
      ∧ cosSeries t a = ∑ c ∈ (Finset.range t.toNat).filter (fun c => c % 2 = 0),
          (-1 : ℚ) ^ (c / 2) * a ^ c / (c.factorial : ℚ) :=
  ⟨cosTaylor_eq_cosPartial t a, rfl⟩

/-- Witness for C16: five terms at `a = 2` give `1 - 2^2/2! + 2^4/4! = -1/3`, and no term
gives 0 for a negative count. -/
theorem cosTaylor_is_partial_sum_witness :
    cosTaylor 5 2 = -1 / 3 ∧ cosTaylor (-5) 2 = 0 := by
  refine ⟨?_, ?_⟩
  · rw [(cosTaylor_is_partial_sum 5 2).1]
    norm_num [cosSeries, cosPartial, show Int.toNat 5 = 5 from rfl, Finset.sum_filter,
      Finset.sum_range_succ, Nat.factorial]
  · rw [(cosTaylor_is_partial_sum (-5) 2).1]
    simp [cosSeries, cosPartial]

theorem difference_eq_abs (prev curr : ℚ) : difference prev curr = |prev - curr| := by
  unfold difference
  simp only []
  split
  · rename_i h; rw [abs_of_neg h]; ring
  · rename_i h; rw [abs_of_nonneg (not_lt.mp h)]

theorem threshold_lt_one : threshold < 1 := by
  unfold threshold; norm_num

/-- The test of the loop, on the values `difference` returns, is the criterion on the
absolute differences. -/
theorem converged_iff_difference (a : ℚ) (n : Nat) :
    converged a n
      ↔ difference (sinTaylor ((n : Int) - 1) a) (sinTaylor n a) ≤ threshold
        ∧ difference (cosTaylor ((n : Int) - 1) a) (cosTaylor n a) ≤ threshold := by
  unfold converged threshold
  rw [difference_eq_abs, difference_eq_abs, abs_sub_comm (sinTaylor ((n : Int) - 1) a),
    abs_sub_comm (cosTaylor ((n : Int) - 1) a)]

/-- Going from `m` to `m + 1` terms changes exactly one of the two estimates, by the
power-series term of exponent `m`: the criterion at `m + 1` terms is a bound on that term. -/
theorem converged_succ_iff (a : ℚ) (m : Nat) :
    converged a (m + 1) ↔ |a| ^ m / (m.factorial : ℚ) ≤ 1 / 1000000 := by
  have hprev : ((m + 1 : Nat) : Int) - 1 = ((m : Nat) : Int) := by omega
  have hfact : (0 : ℚ) < (m.factorial : ℚ) := by exact_mod_cast Nat.factorial_pos m
  have hterm : ∀ k : Nat, |(-1 : ℚ) ^ k * a ^ m / (m.factorial : ℚ)|
      = |a| ^ m / (m.factorial : ℚ) := by
    intro k
    rw [abs_div, abs_mul, abs_pow, abs_neg, abs_one, one_pow, one_mul, abs_pow,
      abs_of_pos hfact]
  have hnonneg : (0 : ℚ) ≤ |a| ^ m / (m.factorial : ℚ) := by positivity
  unfold converged
  rw [hprev, sinTaylor_eq_sinPartial, sinTaylor_eq_sinPartial, cosTaylor_eq_cosPartial,
    cosTaylor_eq_cosPartial, Int.toNat_natCast, Int.toNat_natCast, sinPartial_succ,
    cosPartial_succ, add_sub_cancel_left, add_sub_cancel_left]
  by_cases hodd : m % 2 = 1
  · rw [if_pos hodd, if_neg (by omega), abs_zero, hterm]
    constructor
    · exact fun h => h.1
    · exact fun h => ⟨h, by norm_num⟩
  · rw [if_neg hodd, if_pos (by omega), abs_zero, hterm]
    constructor
    · exact fun h => h.2
    · exact fun h => ⟨by norm_num, h⟩

theorem converged_at_21 (a : ℚ) (hlo : -PI ≤ a) (hhi : a ≤ PI) : converged a 21 := by
  have habs : |a| ≤ 4 := by
    rw [abs_le]
    unfold PI at hlo hhi
    constructor
    · linarith
    · linarith
  have hpow : |a| ^ 20 ≤ 4 ^ 20 := pow_le_pow_left₀ (abs_nonneg a) habs 20
  have hfact : ((Nat.factorial 20 : ℕ) : ℚ) = 2432902008176640000 := by
    norm_num [Nat.factorial]
  rw [show (21 : Nat) = 20 + 1 from rfl, converged_succ_iff, hfact, div_le_iff₀ (by norm_num)]
  calc |a| ^ 20 ≤ 4 ^ 20 := hpow
    _ ≤ 1 / 1000000 * 2432902008176640000 := by norm_num

theorem expectedTable_succ (a : ℚ) (j : Nat) :
    expectedTable a (j + 1) = expectedTable a j ++ [expectedRow a ((j : Int) + 1)] := by
  unfold expectedTable
  rw [List.range_succ, List.map_append]
  rfl

theorem tableLoop_run (a : ℚ) (n : Nat) (hconv : converged a n)
    (hmin : ∀ m, 2 ≤ m → m < n → ¬ converged a m) :
    ∀ (d j fuel : Nat) (sDiff cDiff : ℚ), 1 ≤ j → j + d = n → d < fuel →
      (j = 1 → sDiff = 1 ∧ cDiff = 1) →
      (j ≠ 1 → sDiff = difference (sinTaylor ((j : Int) - 1) a) (sinTaylor j a)
        ∧ cDiff = difference (cosTaylor ((j : Int) - 1) a) (cosTaylor j a)) →
      (j = 1 → 2 ≤ n) →
      tableLoop a fuel ((j : Int) + 1) (sinTaylor j a) (cosTaylor j a) sDiff cDiff
          (expectedTable a j)
        = some (expectedTable a n) := by
  intro d
  induction d with
  | zero =>
    intro j fuel sDiff cDiff hj hjn hfuel h1 h2 h3
    obtain ⟨f, rfl⟩ : ∃ f, fuel = f + 1 := ⟨fuel - 1, by omega⟩
    have hjn' : j = n := by omega
    subst hjn'
    have hne : j ≠ 1 := fun h => by have h' := h3 h; omega
    obtain ⟨hs, hc⟩ := h2 hne
    have hconv' := (converged_iff_difference a j).mp hconv
    have hcond : ¬ (sDiff > threshold ∨ cDiff > threshold) := by
      rw [hs, hc]
      rintro (h | h)
      · exact absurd hconv'.1 (not_le.mpr h)
      · exact absurd hconv'.2 (not_le.mpr h)
    rw [tableLoop, if_neg hcond]
  | succ d ih =>
    intro j fuel sDiff cDiff hj hjn hfuel h1 h2 h3
    obtain ⟨f, rfl⟩ : ∃ f, fuel = f + 1 := ⟨fuel - 1, by omega⟩
    have hcond : sDiff > threshold ∨ cDiff > threshold := by
      by_cases hj1 : j = 1
      · left; rw [(h1 hj1).1]; exact threshold_lt_one
      · obtain ⟨hs, hc⟩ := h2 hj1
        have hnot := hmin j (by omega) (by omega)
        rw [converged_iff_difference] at hnot
        rw [hs, hc]
        by_contra hcon
        rw [not_or, not_lt, not_lt] at hcon
        exact hnot hcon
    have hterm : ¬ ((j : Int) + 1 = 1) := by omega
    have hcast : (((j + 1 : Nat) : Int)) = (j : Int) + 1 := by push_cast; rfl
    have hprev : (((j + 1 : Nat) : Int)) - 1 = (j : Int) := by omega
    have hrun := ih (j + 1) f
      (difference (sinTaylor j a) (sinTaylor ((j : Int) + 1) a))
      (difference (cosTaylor j a) (cosTaylor ((j : Int) + 1) a))
      (by omega) (by omega) (by omega) (fun h => by omega)
      (fun _ => by rw [hprev, hcast]; exact ⟨rfl, rfl⟩) (fun h => by omega)
    rw [hcast, expectedTable_succ] at hrun
    rw [tableLoop, if_pos hcond]
    simp only [if_neg hterm]
    exact hrun

/-- C17. In exact arithmetic, for every angle `a` with `-PI <= a <= PI` the table loop of
`main` terminates: there is a term count `n >= 2` at which both
`|sinTaylor(n,a) - sinTaylor(n-1,a)|` and `|cosTaylor(n,a) - cosTaylor(n-1,a)|` are at
most `0.000001`, and the loop stops at the first such `n`: with any fuel above `n` the
run ends after printing exactly the rows for the term counts `1, ..., n`. -/
theorem table_loop_stops_at_first_convergence (a sPrev cPrev : ℚ) (hlo : -PI ≤ a)
    (hhi : a ≤ PI) :
    ∃ n : Nat, 2 ≤ n ∧ converged a n ∧ (∀ m, 2 ≤ m → m < n → ¬ converged a m)
      ∧ ∀ fuel, n < fuel → main fuel a sPrev cPrev = some (expectedTable a n) := by
  classical
  have hex : ∃ n, 2 ≤ n ∧ converged a n := ⟨21, by decide, converged_at_21 a hlo hhi⟩
  refine ⟨Nat.find hex, (Nat.find_spec hex).1, (Nat.find_spec hex).2,
    fun m hm hlt hc => Nat.find_min hex hlt ⟨hm, hc⟩, ?_⟩
  intro fuel hfuel
  have hn := (Nat.find_spec hex).1
  obtain ⟨f, rfl⟩ : ∃ f, fuel = f + 1 := ⟨fuel - 1, by omega⟩
  have hrun := tableLoop_run a (Nat.find hex) (Nat.find_spec hex).2
    (fun m hm hlt hc => Nat.find_min hex hlt ⟨hm, hc⟩) (Nat.find hex - 1) 1 f
    1 1 (le_refl 1) (by omega) (by omega) (fun _ => ⟨rfl, rfl⟩) (fun h => absurd rfl h)
    (fun _ => hn)
  have hcast : ((1 : Nat) : Int) = 1 := by norm_num
  have htable : expectedTable a 1 = [] ++ [expectedRow a 1] := by
    simp [expectedTable, List.range_succ]
  rw [hcast, htable] at hrun
  rw [main, tableLoop, if_pos (Or.inl threshold_lt_one)]
  simp only [if_true]
  exact hrun

/-- Witness for C17 at the angle 1: the first term count at which both differences are
within the threshold is 11 (the differences at 11 terms are 0 and `1/10!`, the ones at
10 terms 0 and `1/9!`), and the table has exactly the rows for 1 to 11 terms. -/
theorem table_loop_stops_at_first_convergence_witness :
    -PI ≤ (1 : ℚ) ∧ (1 : ℚ) ≤ PI
      ∧ converged 1 11 ∧ (∀ m, 2 ≤ m → m < 11 → ¬ converged 1 m)
      ∧ main 12 1 0 0 = some (expectedTable 1 11) := by
  have hlo : -PI ≤ (1 : ℚ) := by unfold PI; norm_num
  have hhi : (1 : ℚ) ≤ PI := by unfold PI; norm_num
  have h11 : converged 1 11 := by
    rw [show (11 : Nat) = 10 + 1 from rfl, converged_succ_iff]
    norm_num [Nat.factorial]
  have hbelow : ∀ m, 2 ≤ m → m < 11 → ¬ converged 1 m := by
    intro m hm hlt
    obtain ⟨k, rfl⟩ : ∃ k, m = k + 1 := ⟨m - 1, by omega⟩
    rw [converged_succ_iff]
    have hk : k ≤ 9 := by omega
    interval_cases k <;> norm_num [Nat.factorial]
  obtain ⟨n, hn2, hconv, hmin, hrun⟩ := table_loop_stops_at_first_convergence 1 0 0 hlo hhi
  have hn : n = 11 := by
    rcases Nat.lt_trichotomy n 11 with h | h | h
    · exact absurd hconv (hbelow n hn2 h)
    · exact h
    · exact absurd h11 (hmin 11 (by decide) h)
  subst hn
  exact ⟨hlo, hhi, h11, hbelow, hrun 12 (by decide)⟩

end TrigC

/-! # Theorems about `inventory.c` -/

namespace InventoryC

theorem threeWay_eq_lengthOrder (x y : ℚ) : threeWay x y = lengthOrder x y := by
  unfold threeWay lengthOrder
  split
  · rfl
  · rename_i h
    split
    · rename_i h'
      rw [if_neg (ne_of_gt h')]
    · rename_i h'
      rw [if_pos (le_antisymm (not_lt.mp h') (not_lt.mp h))]

theorem lengthOrder_scale (k x y : ℚ) (hk : 0 < k) :
    lengthOrder (x * k) (y * k) = lengthOrder x y := by
  unfold lengthOrder
  have h1 : x * k < y * k ↔ x < y := mul_lt_mul_right hk
  have h2 : x * k = y * k ↔ x = y := mul_left_inj' (ne_of_gt hk)
  simp only [h1, h2]

theorem itemComp_eq (itemA itemB : Item) (hA : denominatorOk itemA) (hB : denominatorOk itemB) :
    itemComp itemA itemB = some (lengthOrder (meters itemA) (meters itemB)) := by
  obtain ⟨skuA, lenA⟩ := itemA
  obtain ⟨skuB, lenB⟩ := itemB
  cases lenA with
  | metric a =>
    cases lenB with
    | metric b => simp [itemComp, meters, threeWay_eq_lengthOrder]
    | imperial b =>
      have hb : b.denominator ≠ 0 := hB
      simp only [itemComp, mixedNumeral, if_neg hb, meters, threeWay_eq_lengthOrder,
        INCHES_TO_METERS]
      rw [mul_comm]
  | imperial a =>
    have ha : a.denominator ≠ 0 := hA
    cases lenB with
    | metric b =>
      simp only [itemComp, mixedNumeral, if_neg ha, meters, threeWay_eq_lengthOrder,
        INCHES_TO_METERS]
      rw [mul_comm]
    | imperial b =>
      have hb : b.denominator ≠ 0 := hB
      simp only [itemComp, mixedNumeral, if_neg ha, if_neg hb, meters, threeWay_eq_lengthOrder]
      rw [lengthOrder_scale _ _ _ (by norm_num)]

theorem lengthOrder_swap (x y : ℚ) : lengthOrder y x = -lengthOrder x y := by
  unfold lengthOrder
  rcases lt_trichotomy x y with h | h | h
  · rw [if_pos h, if_neg (not_lt.mpr (le_of_lt h)), if_neg (ne_of_gt h)]; rfl
  · subst h; simp
  · rw [if_pos h, if_neg (not_lt.mpr (le_of_lt h)), if_neg (ne_of_gt h)]

theorem lengthOrder_nonpos_iff (x y : ℚ) : lengthOrder x y ≤ 0 ↔ x ≤ y := by
  unfold lengthOrder
  rcases lt_trichotomy x y with h | h | h
  · simp [h, le_of_lt h]
  · subst h; simp
  · simp [not_lt.mpr (le_of_lt h), ne_of_gt h, not_le.mpr h]

/-- C18. In exact arithmetic `itemComp` orders items by physical length: for items whose
imperial denominators are not zero, `itemComp(A, B)` is -1, 0 or 1 according as the
length of `A` in meters is less than, equal to or greater than the length of `B` in
meters.  Hence `itemComp(B, A) = -itemComp(A, B)`, and the comparison is transitive, also
across metric and imperial items. -/
theorem itemComp_orders_by_length (itemA itemB itemC : Item) (hA : denominatorOk itemA)
    (hB : denominatorOk itemB) (hC : denominatorOk itemC) :
    itemComp itemA itemB = some (lengthOrder (meters itemA) (meters itemB))
      ∧ itemComp itemB itemA = (itemComp itemA itemB).map (fun r => -r)
      ∧ (∀ r1 r2, itemComp itemA itemB = some r1 → itemComp itemB itemC = some r2 →
          r1 ≤ 0 → r2 ≤ 0 → ∃ r3, itemComp itemA itemC = some r3 ∧ r3 ≤ 0) := by
  refine ⟨itemComp_eq itemA itemB hA hB, ?_, ?_⟩
  · rw [itemComp_eq itemA itemB hA hB, itemComp_eq itemB itemA hB hA, lengthOrder_swap]
    rfl
  · intro r1 r2 h1 h2 hr1 hr2
    rw [itemComp_eq itemA itemB hA hB, Option.some.injEq] at h1
    rw [itemComp_eq itemB itemC hB hC, Option.some.injEq] at h2
    rw [← h1, lengthOrder_nonpos_iff] at hr1
    rw [← h2, lengthOrder_nonpos_iff] at hr2
    exact ⟨_, itemComp_eq itemA itemC hA hC,
      (lengthOrder_nonpos_iff _ _).mpr (le_trans hr1 hr2)⟩

/-- Witness for C18: 0.0254 m equals 1 inch, and both are shorter than 1 1/2 inches. -/
theorem itemComp_orders_by_length_witness :
    denominatorOk ⟨1, .metric (254 / 10000)⟩ ∧ denominatorOk ⟨2, .imperial ⟨1, 0, 1⟩⟩
      ∧ denominatorOk ⟨3, .imperial ⟨1, 1, 2⟩⟩
      ∧ itemComp ⟨1, .metric (254 / 10000)⟩ ⟨2, .imperial ⟨1, 0, 1⟩⟩ = some 0
      ∧ itemComp ⟨2, .imperial ⟨1, 0, 1⟩⟩ ⟨3, .imperial ⟨1, 1, 2⟩⟩ = some (-1)
      ∧ itemComp ⟨1, .metric (254 / 10000)⟩ ⟨3, .imperial ⟨1, 1, 2⟩⟩ = some (-1)
      ∧ itemComp ⟨2, .imperial ⟨1, 0, 1⟩⟩ ⟨1, .metric (254 / 10000)⟩
          = (itemComp ⟨1, .metric (254 / 10000)⟩ ⟨2, .imperial ⟨1, 0, 1⟩⟩).map (fun r => -r) := by
  have hA : denominatorOk ⟨1, .metric (254 / 10000)⟩ := trivial
  have hB : denominatorOk ⟨2, .imperial ⟨1, 0, 1⟩⟩ := by
    show (1 : Int) ≠ 0
    decide
  have hC : denominatorOk ⟨3, .imperial ⟨1, 1, 2⟩⟩ := by
    show (2 : Int) ≠ 0
    decide
  have h := itemComp_orders_by_length ⟨1, .metric (254 / 10000)⟩ ⟨2, .imperial ⟨1, 0, 1⟩⟩
    ⟨3, .imperial ⟨1, 1, 2⟩⟩ hA hB hC
  have h' := itemComp_orders_by_length ⟨2, .imperial ⟨1, 0, 1⟩⟩ ⟨3, .imperial ⟨1, 1, 2⟩⟩
    ⟨1, .metric (254 / 10000)⟩ hB hC hA
  have h'' := itemComp_orders_by_length ⟨1, .metric (254 / 10000)⟩ ⟨3, .imperial ⟨1, 1, 2⟩⟩
    ⟨2, .imperial ⟨1, 0, 1⟩⟩ hA hC hB
  refine ⟨hA, hB, hC, ?_, ?_, ?_, h.2.1⟩
  · rw [h.1]; norm_num [lengthOrder, meters]
  · rw [h'.1]; norm_num [lengthOrder, meters]
  · rw [h''.1]; norm_num [lengthOrder, meters]

end InventoryC

/-! # Theorems about `readAndPrint.c` -/

namespace ReadAndPrintC

/-- C19, the code at its failing input.  The call passes `sizeof( values )`, 800, as the
number of items, so the read stores up to 800 values: on a file of 808 bytes, 101
values of 8 bytes, `c` is 101, more than the 100 elements of `values`, and the output
loop reads `values[ 100 ]`. -/
theorem readCount_exceeds_capacity :
    sizeofValues = 800
      ∧ readCount (List.replicate 808 0) = 101
      ∧ ¬ (readCount (List.replicate 808 0) ≤ valuesCapacity)
      ∧ 100 ∈ indicesRead (List.replicate 808 0)
      ∧ ¬ (100 < valuesCapacity) := by
  have h : readCount (List.replicate 808 0) = 101 := by
    rw [readCount, fread, List.length_replicate]
    decide
  refine ⟨rfl, h, ?_, ?_, by decide⟩
  · rw [h]; decide
  · rw [indicesRead, h]; decide

end ReadAndPrintC
